import Mathlib

/-!
# Verification of the todo reconciliation logic

Shallow embedding of the todo-list agent repository:
* `src/src/lib/todoUtils.ts` — todo extraction (JSON / markdown table) and serialization,
* `src/src/app.tsx` — `mergeIncomingTodos`, `onDelete`, `onToggleDone`, fingerprints,
* the `HistoryDO` durable object — `GET /api/histories` listing.

Modelling conventions:
* JavaScript strings are Lean `String`s; the handful of string methods the code
  uses (`trim`, `toLowerCase`, `split`, `startsWith`, `includes`, `slice`,
  `replace`) are re-implemented below as total functions on `List Char` so that
  all proofs can compute.
* JavaScript numbers occurring in todo data are modelled by `JsNum`
  (an integer or `NaN`); `Number(string)` is modelled for integer numerals.
* A `createdAt` ISO timestamp string is modelled by its `Date.parse`
  millisecond value (a `Nat`); an absent field is `none`.
* `new Date(d)` parsing inside `canonicalDue` is modelled for date-only
  ISO strings `YYYY-MM-DD` (`jsDateISO`); other shapes are treated as
  unparseable, matching the code's fallback to `String(d).trim()`.
* `Math.random()`-based id generation is modelled by a deterministic counter.
-/

/-- JavaScript whitespace characters relevant to `String.prototype.trim`
(space, tab, newline, carriage return suffice for the data handled here). -/
def jsIsWs (c : Char) : Bool :=
  c = ' ' || c = '\t' || c = '\n' || c = '\r'

/-- Drop trailing whitespace, defined recursively so idempotence is provable. -/
def dropEndWs : List Char → List Char
  | [] => []
  | c :: cs =>
    match dropEndWs cs with
    | [] => if jsIsWs c then [] else [c]
    | r => c :: r

/-- Model of `String.prototype.trim` on the character list. -/
def jsTrimList (l : List Char) : List Char :=
  dropEndWs (l.dropWhile jsIsWs)

/-- Model of `String.prototype.trim`. -/
def jsTrim (s : String) : String :=
  ⟨jsTrimList s.data⟩

/-- ASCII lower-casing of one character (the data handled here is ASCII). -/
def lowerChar (c : Char) : Char :=
  if 'A' ≤ c && c ≤ 'Z' then Char.ofNat (c.toNat + 32) else c

/-- Model of `String.prototype.toLowerCase` (ASCII). -/
def jsToLower (s : String) : String :=
  ⟨s.data.map lowerChar⟩

/-- Auxiliary for splitting on a single separator character. -/
def splitOnCharAux (c : Char) : List Char → List Char → List (List Char)
  | [], acc => [acc.reverse]
  | x :: xs, acc =>
    if x = c then acc.reverse :: splitOnCharAux c xs []
    else splitOnCharAux c xs (x :: acc)

/-- Model of `String.prototype.split` with a one-character separator. -/
def jsSplitChar (c : Char) (s : String) : List String :=
  (splitOnCharAux c s.data []).map fun l => ⟨l⟩

/-- Does `l` start with the pattern `p`? -/
def startsWithList : List Char → List Char → Bool
  | [], _ => true
  | _ :: _, [] => false
  | p :: ps, x :: xs => p = x && startsWithList ps xs

/-- Model of `String.prototype.startsWith`. -/
def jsStartsWith (p s : String) : Bool :=
  startsWithList p.data s.data

/-- Does `l` contain the pattern `pat` as a contiguous sublist? -/
def containsList (pat : List Char) : List Char → Bool
  | [] => startsWithList pat []
  | x :: xs => startsWithList pat (x :: xs) || containsList pat xs

/-- Model of `String.prototype.includes`. -/
def jsIncludes (p s : String) : Bool :=
  containsList p.data s.data

/-- Model of `String.prototype.slice(a, b)` (for `0 ≤ a ≤ b`). -/
def jsSlice (s : String) (a b : Nat) : String :=
  ⟨(s.data.drop a).take (b - a)⟩

/-- Model of `${x}` for a possibly-undefined string
(JavaScript renders `undefined` as the string "undefined"). -/
def jsStrOfOpt : Option String → String
  | some s => s
  | none => "undefined"

/-- A JavaScript number occurring in todo data: an integer or `NaN`.
(The todo fields handled by the code are integer-valued when well-formed.) -/
inductive JsNum where
  | num : Int → JsNum
  | nan : JsNum
deriving Repr, DecidableEq

/-- Model of `String(n)` for a `JsNum`. -/
def jsNumStr : JsNum → String
  | .num n => toString n
  | .nan => "NaN"

/-- All characters are decimal digits (and the list is nonempty). -/
def allDigits : List Char → Bool
  | [] => false
  | [c] => c.isDigit
  | c :: cs => c.isDigit && allDigits cs

/-- Decimal value of a digit list. -/
def digitsVal : List Char → Nat → Nat
  | [], acc => acc
  | c :: cs, acc => digitsVal cs (acc * 10 + (c.toNat - '0'.toNat))

/-- Model of `Number(s)` for integer numerals: trims, accepts an optional
leading minus sign followed by digits, yields `NaN` otherwise
(`Number("")` is `0`, as in JavaScript). -/
def jsNumber (s : String) : JsNum :=
  match jsTrimList s.data with
  | [] => .num 0
  | '-' :: rest => if allDigits rest then .num (-(digitsVal rest 0 : Int)) else .nan
  | l => if allDigits l then .num (digitsVal l 0) else .nan

/-- The `Todo` record (`src/shared` / `src/src/app.tsx`).  Every field is
optional in the model: the merge code defends against absent values for all
of them (`raw.id ?? undefined`, `raw.title ? … : undefined`, …), and `none`
models the JavaScript `undefined`.  `createdAt` is the `Date.parse`
millisecond value of the ISO timestamp string. -/
structure Todo where
  id : Option String := none
  title : Option String := none
  due : Option String := none
  priority : Option String := none
  estimatedMinutes : Option JsNum := none
  done : Option Bool := none
  createdAt : Option Nat := none
deriving Repr, DecidableEq

/-- JavaScript truthiness of a possibly-absent string (`undefined` and `""`
are falsy). -/
def optStrTruthy : Option String → Bool
  | some s => s ≠ ""
  | none => false

/-- `titleKey` (app.tsx line 306): `s ? String(s).trim().toLowerCase() : ""`. -/
def titleKey : Option String → String
  | some s => if s = "" then "" else jsToLower (jsTrim s)
  | none => ""

/-- Is `s` a date-only ISO string `YYYY-MM-DD` (with plausible month/day)? -/
def isYMDShape (s : String) : Bool :=
  match s.data with
  | [y1, y2, y3, y4, h1, m1, m2, h2, d1, d2] =>
    y1.isDigit && y2.isDigit && y3.isDigit && y4.isDigit &&
    h1 = '-' && m1.isDigit && m2.isDigit && h2 = '-' && d1.isDigit && d2.isDigit &&
    (let m := (m1.toNat - '0'.toNat) * 10 + (m2.toNat - '0'.toNat)
     let d := (d1.toNat - '0'.toNat) * 10 + (d2.toNat - '0'.toNat)
     1 ≤ m && m ≤ 12 && 1 ≤ d && d ≤ 31)
  | _ => false

/-- Model of `new Date(d).toISOString()` when `d` parses: for a date-only ISO
string `YYYY-MM-DD` the result is `YYYY-MM-DDT00:00:00.000Z`; other shapes
are treated as unparseable (`none`), matching the `isNaN(dt.getTime())`
fallback for the data this application handles. -/
def jsDateISO (s : String) : Option String :=
  if isYMDShape s then some (s ++ "T00:00:00.000Z") else none

/-- `canonicalDue` as defined inside `mergeIncomingTodos`
(app.tsx lines 347-356): note the `slice(10, 19)`. -/
def canonicalDue (d : Option String) : String :=
  match d with
  | none => ""
  | some s =>
    if s = "" then ""
    else match jsDateISO s with
      | some iso => jsSlice iso 10 19
      | none => jsTrim s

/-- The canonicalization used inline in `onDelete` (app.tsx line 576):
the same as `canonicalDue` except it takes `slice(0, 10)`. -/
def canonicalDueDelete (d : Option String) : String :=
  match d with
  | none => ""
  | some s =>
    if s = "" then ""
    else match jsDateISO s with
      | some iso => jsSlice iso 0 10
      | none => jsTrim s

/-- `${typeof t.estimatedMinutes === 'number' ? String(t.estimatedMinutes)
: String(t.estimatedMinutes ?? "")}` — the estimate component of a
fingerprint. -/
def estFpStr : Option JsNum → String
  | some n => jsNumStr n
  | none => ""

/-- `fingerprint` as defined inside `mergeIncomingTodos` (app.tsx line 357). -/
def fingerprint (t : Todo) : String :=
  titleKey t.title ++ "|" ++ canonicalDue t.due ++ "|" ++ t.priority.getD "" ++ "|"
    ++ estFpStr t.estimatedMinutes

/-- The fingerprint computed inline in `onDelete` (app.tsx line 576) when
recording a deletion tombstone. -/
def fingerprintDelete (t : Todo) : String :=
  titleKey t.title ++ "|" ++ canonicalDueDelete t.due ++ "|" ++ t.priority.getD "" ++ "|"
    ++ estFpStr t.estimatedMinutes


/-! ## Assoc-list model of the JavaScript `Map`s

A `Map` is a list of key/value pairs with the most recent binding first:
`Map.set` prepends, lookup takes the first match, and the `new Map(pairs)`
constructor (where later pairs win) reverses the pair list. -/

/-- First-match association lookup (model of `Map.prototype.get`). -/
def alookup {κ α : Type} [DecidableEq κ] (k : κ) : List (κ × α) → Option α
  | [] => none
  | (k1, v) :: rest => if k = k1 then some v else alookup k rest

/-- Model of `new Map(pairs)` where later pairs overwrite earlier ones. -/
def mkMap {κ α : Type} (pairs : List (κ × α)) : List (κ × α) :=
  pairs.reverse

/-- Timestamp maps (`localToggleTimes`, `localDeleteTimes`,
`localDeletedFingerprints`): string key to millisecond timestamp. -/
abbrev TsMap := List (String × Nat)

/-- `if (ts && incoming <= ts)`: the tombstone check, with JavaScript
truthiness of the looked-up timestamp (`undefined` and `0` are falsy). -/
def tsHit (o : Option Nat) (incoming : Nat) : Bool :=
  match o with
  | some ts => ts ≠ 0 && incoming ≤ ts
  | none => false

/-- The ambient mutable state consulted by `mergeIncomingTodos`:
the local toggle/delete timestamp maps and the current clock
(`Date.now()` in milliseconds; `new Date().toISOString()` is modelled by
the same value). -/
structure MergeEnv where
  now : Nat
  toggleTimes : TsMap := []
  deleteTimes : TsMap := []
  deletedFps : TsMap := []
deriving Repr, DecidableEq

/-- The `partial` candidate built for an incoming todo
(app.tsx lines 384-393): every field is kept as-is except `title`,
which is trimmed when truthy and absent otherwise. -/
def partialOf (raw : Todo) : Todo :=
  { id := raw.id
    title := match raw.title with
      | some s => if s = "" then none else some (jsTrim s)
      | none => none
    due := raw.due
    priority := raw.priority
    estimatedMinutes := raw.estimatedMinutes
    done := raw.done
    createdAt := raw.createdAt }

/-- `matchTitle` (app.tsx line 396): `partial.title ?? String(raw.title ?? "Untitled")`. -/
def matchTitleOf (raw : Todo) : String :=
  (partialOf raw).title.getD (raw.title.getD "Untitled")

/-- `fpCandidate` (app.tsx line 397), the fingerprint recomputed from the
partial candidate with fallbacks to the raw record. -/
def fpCandidateOf (raw : Todo) : String :=
  let pt := partialOf raw
  titleKey (some (matchTitleOf raw)) ++ "|" ++ canonicalDue (pt.due.or raw.due) ++ "|"
    ++ (pt.priority.or raw.priority).getD "" ++ "|"
    ++ (match pt.estimatedMinutes with
        | some n => jsNumStr n
        | none => match raw.estimatedMinutes with
          | some n => jsNumStr n
          | none => "")

/-- `{ ...base, ...definedOnly(defn) }`: fields defined in `defn` overwrite,
absent fields keep the base value (app.tsx lines 361-367 and 436). -/
def spreadDefined (base defn : Todo) : Todo :=
  { id := defn.id.or base.id
    title := defn.title.or base.title
    due := defn.due.or base.due
    priority := defn.priority.or base.priority
    estimatedMinutes := defn.estimatedMinutes.or base.estimatedMinutes
    done := defn.done.or base.done
    createdAt := defn.createdAt.or base.createdAt }

/-- The special handling of the `done` field (app.tsx lines 411-434): if the
candidate defines `done`, it is dropped again when the record was toggled
locally within the last 10 seconds, or when the incoming `createdAt`
(absent → 0) is not strictly newer than the existing one (absent → 0). -/
def dropDoneIfStale (env : MergeEnv) (pt base : Todo) : Todo :=
  match pt.done with
  | none => pt
  | some _ =>
    let existingTs := base.createdAt.getD 0
    let incomingTs := pt.createdAt.getD 0
    let toggleTs := (match base.id with
      | some s => alookup s env.toggleTimes
      | none => none).getD 0
    if toggleTs ≠ 0 && env.now - toggleTs < 10000 then { pt with done := none }
    else if incomingTs ≤ existingTs then { pt with done := none }
    else pt

/-- The in-place patch applied to a matched existing record
(app.tsx lines 405-437). -/
def patchExisting (env : MergeEnv) (raw base : Todo) : Todo :=
  spreadDefined base (dropDoneIfStale env (partialOf raw) base)

/-- The generated identifier `todo-${Date.now()}-${random}` for an inserted
record; the random suffix is modelled by the insertion counter `k`. -/
def genId (now k : Nat) : String :=
  "todo-" ++ toString now ++ "-" ++ toString k

/-- The fresh record built when no existing record matches
(app.tsx lines 440-448): `done` defaults to `false`, `createdAt` to now,
the identifier to a generated one. -/
def mkNewTodo (env : MergeEnv) (k : Nat) (raw : Todo) : Todo :=
  let pt := partialOf raw
  { id := some (pt.id.getD (genId env.now k))
    title := some (jsTrim (pt.title.getD (raw.title.getD "Untitled")))
    due := pt.due.or raw.due
    priority := pt.priority.or raw.priority
    estimatedMinutes := match pt.estimatedMinutes with
      | some n => some n
      | none => raw.estimatedMinutes
    done := some (pt.done.getD false)
    createdAt := some (pt.createdAt.getD (raw.createdAt.getD env.now)) }

/-- Model of `Array.prototype.findIndex`. -/
def findIdxO (p : Todo → Bool) : List Todo → Option Nat
  | [] => none
  | t :: ts => if p t then some 0 else (findIdxO p ts).map (· + 1)

/-- The mutable state of one `mergeIncomingTodos` call: the result array,
the three lookup maps, and the insertion counter standing in for
`Math.random()`. -/
structure MState where
  result : List Todo
  byId : List (Option String × Todo)
  byTitle : List (String × Todo)
  byFp : List (String × Todo)
  ctr : Nat
deriving Repr, DecidableEq

/-- Initial merge state (app.tsx lines 343-358): result starts as a copy of
the current list and the maps are built from it. -/
def initState (prev : List Todo) : MState :=
  { result := prev
    byId := mkMap (prev.map fun p => (p.id, p))
    byTitle := mkMap (prev.map fun p => (titleKey p.title, p))
    byFp := mkMap (prev.map fun p => (fingerprint p, p))
    ctr := 0 }

/-- The tombstone lookup by identifier:
`raw.id ? localDeleteTimes.current.get(raw.id) : undefined` (app.tsx
line 373); JavaScript truthiness makes both an absent and an empty id skip
the lookup. -/
def idDelLookup (env : MergeEnv) (raw : Todo) : Option Nat :=
  match raw.id with
  | some s => if s ≠ "" then alookup s env.deleteTimes else none
  | none => none

/-- The existing-record lookup
`existingById ?? existingByFp ?? existingByTitle` (app.tsx lines 399-403). -/
def existingLookup (st : MState) (raw : Todo) : Option Todo :=
  (if optStrTruthy (partialOf raw).id then alookup (partialOf raw).id st.byId else none).or
    ((alookup (fpCandidateOf raw) st.byFp).or
      (alookup (titleKey (some (matchTitleOf raw))) st.byTitle))

/-- The insertion of a fresh record and the map updates
(app.tsx lines 438-454). -/
def insertNew (env : MergeEnv) (st : MState) (raw : Todo) : MState :=
  let nt := mkNewTodo env st.ctr raw
  { result := st.result ++ [nt]
    byId := (nt.id, nt) :: st.byId
    byTitle := (titleKey nt.title, nt) :: st.byTitle
    byFp := (fingerprint nt, nt) :: st.byFp
    ctr := st.ctr + 1 }

/-- The body of the `for (const raw of incoming)` loop
(app.tsx lines 369-455). -/
def mergeStep (env : MergeEnv) (st : MState) (raw : Todo) : MState :=
  if tsHit (alookup (fingerprint raw) env.deletedFps) (raw.createdAt.getD 0) then st
  else if tsHit (idDelLookup env raw) (raw.createdAt.getD 0) then st
  else
    match existingLookup st raw with
    | some ex =>
      match findIdxO (fun r => r.id == ex.id) st.result with
      | some idx =>
        match st.result.get? idx with
        | some base => { st with result := st.result.set idx (patchExisting env raw base) }
        | none => st
      | none => st
    | none => insertNew env st raw

/-- `mergeIncomingTodos` (app.tsx lines 342-459): fold the loop body over the
incoming batch and return the result array. -/
def mergeIncomingTodos (env : MergeEnv) (incoming : List Todo) (prev : List Todo) :
    List Todo :=
  (incoming.foldl (mergeStep env) (initState prev)).result

/-- The new todo list produced by `onDelete` (app.tsx line 557):
`prev.filter((t) => t.id !== id)`. -/
def onDeleteTodos (prev : List Todo) (i : String) : List Todo :=
  prev.filter fun t => !(t.id == some i)

/-- The tombstone state recorded by `onDelete` (app.tsx lines 561-579):
the identifier's deletion time is stored, and when the deleted record is
found its `onDelete`-fingerprint is stored as well.  (The 5-minute
`setTimeout` cleanup and the `localStorage` persistence are outside this
model.) -/
def onDeleteEnv (env : MergeEnv) (prev : List Todo) (i : String) : MergeEnv :=
  let env1 := { env with deleteTimes := (i, env.now) :: env.deleteTimes }
  match prev.find? (fun t => t.id == some i) with
  | some d => { env1 with deletedFps := (fingerprintDelete d, env.now) :: env1.deletedFps }
  | none => env1

/-- The new todo list produced by `onToggleDone` (app.tsx lines 506-531):
the matching record's `done` is negated (`!undefined` is `true`) and its
`createdAt` set to now. -/
def onToggleTodos (now : Nat) (i : String) (prev : List Todo) : List Todo :=
  prev.map fun t =>
    if t.id == some i then { t with done := some (!(t.done.getD false)), createdAt := some now }
    else t

/-- The toggle timestamp recorded by `onToggleDone` (app.tsx line 512). -/
def onToggleEnv (env : MergeEnv) (i : String) : MergeEnv :=
  { env with toggleTimes := (i, env.now) :: env.toggleTimes }

/-! ## `src/src/lib/todoUtils.ts` — markdown table serialization and parsing -/

/-- `escapeCell` (todoUtils.ts lines 127-129): `String(s).replace(/\|/g, "\\|")`. -/
def escCellList : List Char → List Char
  | [] => []
  | c :: cs => if c = '|' then '\\' :: '|' :: escCellList cs else c :: escCellList cs

/-- `escapeCell` applied to a possibly-undefined title. -/
def escapeCell (s : Option String) : String :=
  ⟨escCellList (jsStrOfOpt s).data⟩

/-- Join lines with a newline (model of `Array.prototype.join("\n")`). -/
def joinNL : List String → String
  | [] => ""
  | [x] => x
  | x :: xs => x ++ "\n" ++ joinNL xs

/-- The markdown cell for `estimatedMinutes`: `${t.estimatedMinutes ?? ""}`. -/
def estCellStr : Option JsNum → String
  | some n => jsNumStr n
  | none => ""

/-- One row of the markdown table (todoUtils.ts line 123); `t.done ? "[x]" :
"[ ]"` renders an absent `done` the same as `false`. -/
def todoRow (t : Todo) : String :=
  "| " ++ jsStrOfOpt t.id ++ " | " ++ escapeCell t.title ++ " | " ++ t.due.getD "" ++ " | "
    ++ t.priority.getD "" ++ " | " ++ estCellStr t.estimatedMinutes ++ " | "
    ++ (if t.done.getD false then "[x]" else "[ ]") ++ " |"

/-- `todosToMarkdownTable` (todoUtils.ts lines 121-125). -/
def todosToMarkdownTable (todos : List Todo) : String :=
  joinNL ("| id | title | due | priority | estimatedMinutes | done |"
    :: "| --- | --- | --- | --- | --- | --- |"
    :: todos.map todoRow)

/-- Row-object construction (todoUtils.ts lines 81-84): for each header cell,
`obj[header[i].toLowerCase()] = cols[i] ?? ""`; later duplicate header names
overwrite earlier ones, so lookup takes the last binding. -/
def mkRowObj (header cols : List String) : List (String × String) :=
  (header.enum.map fun p => (jsToLower p.2, (cols.get? p.1).getD "")).reverse

/-- `obj.key ?? ""` on the row object. -/
def rowGet (obj : List (String × String)) (k : String) : String :=
  (alookup k obj).getD ""

/-- `v || dflt` for strings (empty string is falsy). -/
def jsOrStr (v dflt : String) : String :=
  if v = "" then dflt else v

/-- `v || undefined` for strings. -/
def strToOpt (v : String) : Option String :=
  if v = "" then none else some v

/-- One parsed markdown row (todoUtils.ts lines 79-101).  `ri` is the row
index, standing in for the `Math.random()` suffix of a generated id. -/
def parseMdRow (header : List String) (ri : Nat) (row : String) : Todo :=
  let cols := ((jsSplitChar '|' row).map jsTrim).filter fun c => c ≠ ""
  let obj := mkRowObj header cols
  let doneRaw := rowGet obj "done"
  let doneVal : Option Bool :=
    if doneRaw = "" then none
    else
      let lower := jsToLower doneRaw
      some (jsStartsWith "y" lower || jsStartsWith "t" lower || jsIncludes "[x]" lower)
  { id := some (jsOrStr (rowGet obj "id") ("md_" ++ toString ri))
    title := some (jsOrStr (rowGet obj "title") (jsOrStr (rowGet obj "task") ""))
    due := strToOpt (rowGet obj "due")
    priority := strToOpt (rowGet obj "priority")
    estimatedMinutes :=
      if rowGet obj "estimatedminutes" = "" then none
      else some (jsNumber (rowGet obj "estimatedminutes"))
    done := doneVal
    createdAt := none }

/-- `parseTodosFromMarkdownTable` (todoUtils.ts lines 64-105).  Lines are
`split(/\r?\n/)` then trimmed and filtered; trimming also removes any `\r`,
so splitting on `'\n'` alone is equivalent. -/
def parseTodosFromMarkdownTable (md : String) : Option (List Todo) :=
  let lines := ((jsSplitChar '\n' md).map jsTrim).filter fun l => l ≠ ""
  if lines.length < 2 then none
  else
    match lines.findIdx? (fun l => jsStartsWith "|" l && jsIncludes "|" l) with
    | none => none
    | some headerIdx =>
      let header := ((jsSplitChar '|' ((lines.get? headerIdx).getD "")).map jsTrim).filter
        fun c => c ≠ ""
      let sep := (lines.get? (headerIdx + 1)).getD ""
      if !(jsIncludes "---" sep) then none
      else
        let rows := (lines.drop (headerIdx + 2)).filter (jsStartsWith "|")
        let todos := rows.enum.map fun p => parseMdRow header p.1 p.2
        if todos.length > 0 then some todos else none

/-! ## `src/src/lib/todoUtils.ts` — JSON extraction -/

/-- A parsed JSON value.  Numbers are modelled for integer numerals (the
todo fields this application exchanges are integer-valued). -/
inductive JVal where
  | jnull : JVal
  | jbool : Bool → JVal
  | jnum : Int → JVal
  | jstr : String → JVal
  | jarr : List JVal → JVal
  | jobj : List (String × JVal) → JVal

/-- JSON insignificant whitespace. -/
def jsonWs (c : Char) : Bool :=
  c = ' ' || c = '\t' || c = '\n' || c = '\r'

/-- Skip insignificant whitespace. -/
def skipWs (l : List Char) : List Char :=
  l.dropWhile jsonWs

/-- Parse a JSON string literal body (after the opening quote), handling the
standard escapes. -/
def parseStrLit : List Char → List Char → Option (String × List Char)
  | acc, '"' :: rest => some (⟨acc.reverse⟩, rest)
  | acc, '\\' :: e :: rest =>
    if e = 'n' then parseStrLit ('\n' :: acc) rest
    else if e = 't' then parseStrLit ('\t' :: acc) rest
    else if e = 'r' then parseStrLit ('\r' :: acc) rest
    else if e = '"' then parseStrLit ('"' :: acc) rest
    else if e = '\\' then parseStrLit ('\\' :: acc) rest
    else if e = '/' then parseStrLit ('/' :: acc) rest
    else none
  | acc, c :: rest => if c = '\\' || c = '"' then none else parseStrLit (c :: acc) rest
  | _, [] => none

/-- Parse a JSON integer numeral. -/
def parseNumLit (l : List Char) : Option (JVal × List Char) :=
  match l with
  | '-' :: rest =>
    let ds := rest.takeWhile Char.isDigit
    if ds = [] then none else some (.jnum (-(digitsVal ds 0 : Int)), rest.drop ds.length)
  | _ =>
    let ds := l.takeWhile Char.isDigit
    if ds = [] then none else some (.jnum (digitsVal ds 0), l.drop ds.length)

mutual

/-- Fuel-indexed recursive-descent JSON value parser (model of `JSON.parse`). -/
def parseVal : Nat → List Char → Option (JVal × List Char)
  | 0, _ => none
  | fuel + 1, l =>
    match skipWs l with
    | [] => none
    | c :: rest =>
      if c = '{' then
        match skipWs rest with
        | '}' :: r2 => some (.jobj [], r2)
        | l2 => parseObjRest fuel l2 []
      else if c = '[' then
        match skipWs rest with
        | ']' :: r2 => some (.jarr [], r2)
        | l2 => parseArrRest fuel l2 []
      else if c = '"' then
        (parseStrLit [] rest).map fun p => (.jstr p.1, p.2)
      else if startsWithList "true".data (c :: rest) then
        some (.jbool true, (c :: rest).drop 4)
      else if startsWithList "false".data (c :: rest) then
        some (.jbool false, (c :: rest).drop 5)
      else if startsWithList "null".data (c :: rest) then
        some (.jnull, (c :: rest).drop 4)
      else parseNumLit (c :: rest)

/-- Parse the remaining items of a JSON array (after at least one item). -/
def parseArrRest : Nat → List Char → List JVal → Option (JVal × List Char)
  | 0, _, _ => none
  | fuel + 1, l, acc =>
    match parseVal fuel l with
    | none => none
    | some (v, r) =>
      match skipWs r with
      | ',' :: r2 => parseArrRest fuel r2 (acc ++ [v])
      | ']' :: r2 => some (.jarr (acc ++ [v]), r2)
      | _ => none

/-- Parse the remaining members of a JSON object (after at least one). -/
def parseObjRest : Nat → List Char → List (String × JVal) → Option (JVal × List Char)
  | 0, _, _ => none
  | fuel + 1, l, acc =>
    match skipWs l with
    | '"' :: r =>
      match parseStrLit [] r with
      | none => none
      | some (k, r2) =>
        match skipWs r2 with
        | ':' :: r3 =>
          match parseVal fuel r3 with
          | none => none
          | some (v, r4) =>
            match skipWs r4 with
            | ',' :: r5 => parseObjRest fuel r5 (acc ++ [(k, v)])
            | '}' :: r5 => some (.jobj (acc ++ [(k, v)]), r5)
            | _ => none
        | _ => none
    | _ => none

end

/-- Model of `JSON.parse`: the whole string must be consumed (up to trailing
whitespace). -/
def jsonParse (s : String) : Option JVal :=
  match parseVal (2 * s.data.length + 2) s.data with
  | some (v, rest) => if skipWs rest = [] then some v else none
  | none => none

/-- Property access `v.k` (undefined on non-objects; duplicate keys in a
parsed object resolve to the last one, as in `JSON.parse`). -/
def jGet : JVal → String → Option JVal
  | .jobj fs, k => alookup k (mkMap fs)
  | _, _ => none

mutual

/-- `String(v)` for a JSON value (used by `normalizeTodo`'s title coercion). -/
def jvalToString : JVal → String
  | .jnull => "null"
  | .jbool true => "true"
  | .jbool false => "false"
  | .jnum n => toString n
  | .jstr s => s
  | .jarr xs => joinComma xs
  | .jobj _ => "[object Object]"

/-- Array-to-string coercion: elements joined with commas. -/
def joinComma : List JVal → String
  | [] => ""
  | [x] => jvalToString x
  | x :: xs => jvalToString x ++ "," ++ joinComma xs

end

/-- Nullish coalescing `a ?? b` on looked-up JSON values: both a missing
property (`undefined`) and `null` fall through. -/
def jCoalesce (a : Option JVal) (b : Option JVal) : Option JVal :=
  match a with
  | some .jnull => b
  | none => b
  | some v => some v

/-- JavaScript truthiness of a JSON value. -/
def jTruthy : JVal → Bool
  | .jnull => false
  | .jbool b => b
  | .jnum n => n ≠ 0
  | .jstr s => s ≠ ""
  | .jarr _ => true
  | .jobj _ => true

/-- Milliseconds since the epoch of a date-only ISO string (model of
`Date.parse` for the `YYYY-MM-DD` timestamps this application exchanges;
other shapes are treated as absent). -/
def isoMs (s : String) : Option Nat :=
  if isYMDShape s then
    match s.data with
    | [y1, y2, y3, y4, _, m1, m2, _, d1, d2] =>
      let y := digitsVal [y1, y2, y3, y4] 0
      let m := digitsVal [m1, m2] 0
      let d := digitsVal [d1, d2] 0
      let isLeap : Nat → Bool := fun yr => (yr % 4 = 0 && yr % 100 ≠ 0) || yr % 400 = 0
      let rec daysY : Nat → Nat
        | 0 => 0
        | k + 1 => daysY k + (if isLeap (1970 + k) then 366 else 365)
      let cum := [0, 31, 59, 90, 120, 151, 181, 212, 243, 273, 304, 334]
      let leapAdd := if 3 ≤ m && isLeap y then 1 else 0
      some (((daysY (y - 1970) + (cum.get? (m - 1)).getD 0 + leapAdd + (d - 1)) * 86400000))
    | _ => none
  else none

/-- `normalizeTodo` (todoUtils.ts lines 107-119) on a parsed JSON item.
Accessing a property of `null` throws inside the surrounding `try`, which is
modelled by `none`; non-string `id`/`due`/`priority` values are coerced to
their string rendering; the generated fallback id `j_${random}` is modelled
by the item index `ri`. -/
def normalizeTodo (ri : Nat) : JVal → Option Todo
  | .jnull => none
  | v =>
    some
      { id := match jCoalesce (jGet v "id") none with
          | some w => some (jvalToString w)
          | none => some ("j_" ++ toString ri)
        title := some (jvalToString
          ((jCoalesce (jGet v "title") (jCoalesce (jGet v "task") (some (.jstr "")))).getD
            (.jstr "")))
        due := match jCoalesce (jGet v "due") (jCoalesce (jGet v "date") none) with
          | some w => some (jvalToString w)
          | none => none
        priority := match jCoalesce (jGet v "priority") none with
          | some w => some (jvalToString w)
          | none => none
        estimatedMinutes := match jGet v "estimatedMinutes" with
          | some (.jnum n) => some (.num n)
          | some w => if jTruthy w then some (jsNumber (jvalToString w)) else none
          | none => none
        done := match jGet v "done" with
          | some (.jbool b) => some b
          | _ => none
        createdAt := match jGet v "createdAt" with
          | some (.jstr s) => isoMs s
          | _ => none }

/-- `obj.map(normalizeTodo)`: any thrown access aborts the whole candidate
(the surrounding `catch` then tries the next one). -/
def normalizeItems (xs : List JVal) : Option (List Todo) :=
  (xs.enum.mapM fun p => normalizeTodo p.1 p.2)

/-- One candidate of `extractJsonCandidates` put through `JSON.parse` and the
array checks (todoUtils.ts lines 41-57); a `null` item makes the mapping
throw, which the `catch` turns into trying the next candidate. -/
def tryCandidate (c : String) : Option (List Todo) :=
  match jsonParse c with
  | none => none
  | some v =>
    match v with
    | .jarr xs => normalizeItems xs
    | _ =>
      if jTruthy v then
        match jGet v "todos" with
        | some (.jarr xs) => normalizeItems xs
        | _ =>
          match jGet v "tasks" with
          | some (.jarr xs) => normalizeItems xs
          | _ => none
      else none

/-- Split at the first occurrence of `pat`, returning the part before and the
part after the pattern. -/
def splitAtSub (pat : List Char) : List Char → Option (List Char × List Char)
  | [] => if pat = [] then some ([], []) else none
  | x :: xs =>
    if startsWithList pat (x :: xs) then some ([], (x :: xs).drop pat.length)
    else (splitAtSub pat xs).map fun p => (x :: p.1, p.2)

/-- The fenced-code-block candidate: model of the regex
`/```(?:json)?\s*([\s\S]*?)\s*```/i` followed by `.trim()` — the content
between the first triple-backtick fence (with an optional case-insensitive
`json` tag) and the next closing fence, trimmed. -/
def fencedCand (s : String) : Option String :=
  match splitAtSub "```".data s.data with
  | none => none
  | some (_, rest) =>
    let rest := if (rest.take 4).map lowerChar = "json".data then rest.drop 4 else rest
    match splitAtSub "```".data rest with
    | none => none
    | some (inner, _) => some (jsTrim ⟨inner⟩)

/-- The substring from the first `o` to the first `c` after it, inclusive
(model of the lazy regexes `/\[([\s\S]*?)\]/` and `/\{([\s\S]*?)\}/`
rebuilt with their delimiters). -/
def sliceBetween (o c : Char) (l : List Char) : Option String :=
  match l.dropWhile (fun x => !(x = o)) with
  | [] => none
  | x :: rest =>
    let inner := rest.takeWhile fun y => !(y = c)
    if inner.length = rest.length then none
    else some ⟨x :: inner ++ [c]⟩

/-- `extractJsonCandidates` (todoUtils.ts lines 4-33).  The fenced candidate
is used only when its captured group is truthy (`fenced && fenced[1]`): an
all-whitespace fence content captures the empty string, which is falsy, and
the function falls through to the bracket/brace/whole-string candidates. -/
def extractJsonCandidates (input : String) : List String :=
  let s := jsTrim input
  match fencedCand s with
  | some inner =>
    if inner ≠ "" then [inner]
    else (sliceBetween '[' ']' s.data).toList ++ (sliceBetween '{' '}' s.data).toList ++ [s]
  | none =>
    (sliceBetween '[' ']' s.data).toList ++ (sliceBetween '{' '}' s.data).toList ++ [s]

/-- Try candidates in order, returning the first success. -/
def firstCandidate : List String → Option (List Todo)
  | [] => none
  | c :: cs =>
    match tryCandidate c with
    | some l => some l
    | none => firstCandidate cs

/-- `parseTodosFromJSON` (todoUtils.ts lines 36-61). -/
def parseTodosFromJSON (input : String) : Option (List Todo) :=
  if input = "" then none
  else firstCandidate (extractJsonCandidates input)

/-- The extraction contract of spec §4.1: the JSON path, then — only if it
yields nothing — the markdown path (app.tsx lines 101-104 and 470-480). -/
def extractTodos (text : String) : Option (List Todo) :=
  match parseTodosFromJSON text with
  | some l => some l
  | none => parseTodosFromMarkdownTable text

/-! ## `HistoryDO` — session listing -/

/-- A stored session snapshot (`StoredSession` in the durable object).  The
`todos`/`messages` payloads are opaque to the listing logic and are
represented by their counts. -/
structure StoredSession where
  id : String
  createdAt : String
  title : Option String := none
  todoCount : Nat := 0
  messageCount : Nat := 0
deriving Repr, DecidableEq

/-- The comparator `(a, b) => (a.createdAt < b.createdAt ? 1 : -1)` orders
`a` before `b` exactly when `a.createdAt < b.createdAt` is false.  JavaScript
string `<` is lexicographic on code units, modelled by Lean's `String` order. -/
def sessBefore (a b : StoredSession) : Bool :=
  !(decide (a.createdAt < b.createdAt))

/-- Insert one session into an already-sorted suffix (the sort step of
`items.sort(...)` in the `GET /histories` handler). -/
def insertSess (x : StoredSession) : List StoredSession → List StoredSession
  | [] => [x]
  | y :: ys => if sessBefore x y then x :: y :: ys else y :: insertSess x ys

/-- `items.sort((a, b) => (a.createdAt < b.createdAt ? 1 : -1))` modelled as
an insertion sort under the comparator's order. -/
def sortSessions (l : List StoredSession) : List StoredSession :=
  l.foldr insertSess []

/-- The HTTP methods the history routes dispatch on. -/
inductive HttpMethod where
  | GET : HttpMethod
  | POST : HttpMethod
  | DELETE : HttpMethod
deriving Repr, DecidableEq, BEq

/-- `url.pathname.replace(/\/+$/, "")` — strip trailing slashes
(HistoryDO.fetch, unnamed/part_000 line 20). -/
def stripTrailingSlashes (p : String) : String :=
  ⟨(p.data.reverse.dropWhile fun c => c = '/').reverse⟩

/-- The possible responses of `HistoryDO.fetch`, identified by branch; the
`histories` payload carries the sorted session list of the 200 response,
the 201/200 bodies of the other success branches are outside this model. -/
inductive DOResponse where
  | histories : List StoredSession → DOResponse
  | created : DOResponse
  | sessionFound : StoredSession → DOResponse
  | notFoundJson : DOResponse
  | deletedOk : DOResponse
  | notFoundText : DOResponse
deriving Repr, DecidableEq

/-- `pathname.replace("/histories/", "")` for a path of the `/histories/:id`
branches (which start with that prefix, so the replacement drops it). -/
def histPathId (p : String) : String :=
  ⟨p.data.drop 11⟩

/-- `HistoryDO.fetch` (unnamed/part_000 lines 18-175): dispatch on method
and trailing-slash-stripped pathname.  `POST /histories` stores a session
(201); `GET /histories` lists the stored sessions sorted by `createdAt`
descending; `GET /histories/:id` and `DELETE /histories/:id` address one
session; anything else — including any `/api/...` path — falls through to
the final 404 `"Not found"` response. -/
def historyDOFetch (method : HttpMethod) (pathname : String)
    (stored : List StoredSession) : DOResponse :=
  let p := stripTrailingSlashes pathname
  if method == .POST && p == "/histories" then .created
  else if method == .GET && p == "/histories" then .histories (sortSessions stored)
  else if method == .GET && jsStartsWith "/histories/" p then
    match stored.find? (fun s => s.id == histPathId p) with
    | some s => .sessionFound s
    | none => .notFoundJson
  else if method == .DELETE && jsStartsWith "/histories/" p then .deletedOk
  else .notFoundText

/-- The worker's histories proxy (server.ts lines 172-189): for a request
whose pathname starts with `/api/histories` it forwards the request to the
`HistoryDO` singleton with the URL — and so the pathname — unchanged
("adjust pathname to be handled by DO (pass through)"). -/
def workerHistoriesProxy (method : HttpMethod) (pathname : String)
    (stored : List StoredSession) : DOResponse :=
  historyDOFetch method pathname stored

/-- The concrete todo of the markdown round-trip property (spec §8). -/
def roundTripTodo : Todo :=
  { id := some "1", title := some "A", due := some "2026-01-01", priority := some "high",
    estimatedMinutes := some (.num 30), done := some true }

/-- The counterexample todo for C10: `done` absent and the other optional
fields absent as well. -/
def c10Todo : Todo := { id := some "1", title := some "A" }

/-- The C10 companion todo with all other fields present. -/
def c10Full : Todo :=
  { id := some "1", title := some "A", due := some "2026-01-01", priority := some "high",
    estimatedMinutes := some (.num 30) }

/-- The concrete existing record of the defined-fields-only property. -/
def c4Base : Todo := { id := some "t1", title := some "Buy milk", priority := some "low" }

/-- The concrete incoming record of the defined-fields-only property. -/
def c4Incoming : Todo := { id := some "t1", due := some "2026-01-01" }

/-- The merge environment after a local toggle of `x` at time `t0`, consulted
by a merge running at time `now`, in a session with no deletions. -/
def envAfterToggle (x : String) (t0 now : Nat) (tt0 : TsMap) : MergeEnv :=
  { onToggleEnv { now := t0, toggleTimes := tt0 } x with now := now }

/-- Concrete record for the C5 witness scenario (before the toggle). -/
def c5Existing : Todo :=
  { id := some "x", title := some "T", done := some false, createdAt := some 50 }

/-- Concrete echoed record for the C5 witness scenario. -/
def c5Echo : Todo :=
  { id := some "x", title := some "T", done := some false, createdAt := some 55 }

/-- Environment of the idempotence counterexample (no tombstones, clock 5). -/
def idemEnv : MergeEnv := { now := 5 }

/-- Current list of the idempotence counterexample: one record `E`. -/
def idemPrev : List Todo := [{ id := some "E", title := some "a" }]

/-- Incoming batch of the idempotence counterexample: the first record
matches `E` by title and has no id, the second matches `E` by id and
retitles it. -/
def idemBatch : List Todo :=
  [{ title := some "a", due := some "d" }, { id := some "E", title := some "b" }]

/-- A sequence of in-place patches applied to a record. -/
def patchChain (env : MergeEnv) (ps : List Todo) (p : Todo) : Todo :=
  ps.foldl (fun acc s => patchExisting env s acc) p

/-- `q` is `p` after zero or more in-place patches by records of the
incoming batch (how a pre-existing record evolves during one merge call). -/
def chainRel (env : MergeEnv) (incoming : List Todo) (p q : Todo) : Prop :=
  ∃ ps : List Todo, (∀ s ∈ ps, s ∈ incoming) ∧ q = patchChain env ps p

/-- `q` is the fresh record inserted for the incoming record `r` (with
defaults filled in), possibly further patched by records of the batch. -/
def newRel (env : MergeEnv) (incoming : List Todo) (r q : Todo) : Prop :=
  ∃ (ps : List Todo) (k : Nat), (∀ s ∈ ps, s ∈ incoming)
    ∧ q = patchChain env ps (mkNewTodo env k r)

/-! ## Helper lemmas -/

example : jsTrim "  a b  " = "a b" := by decide
example : jsToLower "Buy Milk" = "buy milk" := by decide
example : jsSplitChar '|' "a|b||c" = ["a", "b", "", "c"] := by decide
example : jsIncludes "---" "| --- |" = true := by decide
example : jsSlice "2026-01-01T00:00:00.000Z" 10 19 = "T00:00:00" := by decide
example : jsNumber "30" = .num 30 := by decide
example : jsNumber "[ ]" = .nan := by decide
example : canonicalDue (some "2026-01-01") = "T00:00:00" := by decide
example : canonicalDueDelete (some "2026-01-01") = "2026-01-01" := by decide
example : (jsonParse "[1, 2]").isSome = true := by decide
example : (jsonParse "not json").isNone = true := by decide

theorem dropWhile_ws_idem (l : List Char) :
    (l.dropWhile jsIsWs).dropWhile jsIsWs = l.dropWhile jsIsWs := by
  induction l with
  | nil => rfl
  | cons c cs ih =>
    by_cases h : jsIsWs c
    · simp [List.dropWhile_cons, h, ih]
    · simp [List.dropWhile_cons, h]

theorem dropEndWs_cons (c : Char) (cs : List Char) :
    dropEndWs (c :: cs) =
      match dropEndWs cs with
      | [] => if jsIsWs c then [] else [c]
      | r => c :: r := rfl

theorem dropEndWs_idem : ∀ m : List Char, dropEndWs (dropEndWs m) = dropEndWs m := by
  intro m
  induction m with
  | nil => rfl
  | cons c cs ih =>
    rw [dropEndWs_cons]
    cases h : dropEndWs cs with
    | nil =>
      by_cases hc : jsIsWs c
      · simp [hc, dropEndWs]
      · simp [hc, dropEndWs_cons, dropEndWs]
    | cons r rs =>
      rw [h] at ih
      simp only [dropEndWs_cons, ih]

theorem dropWhile_dropEndWs_comm :
    ∀ m : List Char, (dropEndWs m).dropWhile jsIsWs = dropEndWs (m.dropWhile jsIsWs) := by
  intro m
  induction m with
  | nil => rfl
  | cons c cs ih =>
    by_cases hc : jsIsWs c
    · rw [List.dropWhile_cons]
      simp only [hc, if_true]
      rw [dropEndWs_cons]
      cases h : dropEndWs cs with
      | nil =>
        simp only [hc, if_true]
        rw [h] at ih
        simp at ih
        exact ih.symm
      | cons r rs =>
        rw [h] at ih
        rw [List.dropWhile_cons]
        simp only [hc, if_true]
        exact ih
    · rw [List.dropWhile_cons]
      simp only [hc, if_false]
      rw [dropEndWs_cons]
      cases h : dropEndWs cs with
      | nil => simp [List.dropWhile_cons, hc, dropEndWs_cons, h]
      | cons r rs => simp [List.dropWhile_cons, hc, dropEndWs_cons, h]

theorem jsTrimList_idem (l : List Char) : jsTrimList (jsTrimList l) = jsTrimList l := by
  unfold jsTrimList
  rw [dropWhile_dropEndWs_comm, dropWhile_ws_idem, dropEndWs_idem]

theorem jsTrim_idem (s : String) : jsTrim (jsTrim s) = jsTrim s := by
  unfold jsTrim
  simp [jsTrimList_idem]

theorem alookup_append {κ α : Type} [DecidableEq κ] (k : κ) (A B : List (κ × α)) :
    alookup k (A ++ B) =
      match alookup k A with
      | some v => some v
      | none => alookup k B := by
  induction A with
  | nil => simp [alookup]
  | cons p rest ih =>
    obtain ⟨k1, v⟩ := p
    by_cases h : k = k1
    · simp [alookup, h]
    · simp [alookup, h, ih]

theorem alookup_keys_ne {κ α : Type} [DecidableEq κ] (k : κ) :
    ∀ (l : List (κ × α)), (∀ p ∈ l, p.1 ≠ k) → alookup k l = none := by
  intro l h
  induction l with
  | nil => rfl
  | cons p rest ih =>
    have h1 : p.1 ≠ k := h p (List.mem_cons_self p rest)
    have h2 : ∀ q ∈ rest, q.1 ≠ k := fun q hq => h q (List.mem_cons_of_mem p hq)
    obtain ⟨k1, v⟩ := p
    simp only [alookup]
    rw [if_neg (fun he => h1 (he.symm)), ih h2]

theorem alookup_mem {κ α : Type} [DecidableEq κ] (k : κ) (v : α) :
    ∀ (l : List (κ × α)), alookup k l = some v → (k, v) ∈ l := by
  intro l h
  induction l with
  | nil => simp [alookup] at h
  | cons p rest ih =>
    obtain ⟨k1, w⟩ := p
    simp only [alookup] at h
    by_cases he : k = k1
    · rw [if_pos he] at h
      cases h
      subst he
      exact List.mem_cons_self _ _
    · rw [if_neg he] at h
      exact List.mem_cons_of_mem _ (ih h)

theorem alookup_mkMap_map_none {κ : Type} [DecidableEq κ] (f : Todo → κ) (k : κ)
    (l : List Todo) (h : ∀ p ∈ l, f p ≠ k) :
    alookup k (mkMap (l.map fun p => (f p, p))) = none := by
  apply alookup_keys_ne
  intro p hp
  rw [mkMap, List.mem_reverse] at hp
  obtain ⟨q, hq, rfl⟩ := List.mem_map.mp hp
  exact h q hq

theorem alookup_mkMap_map_mem {κ : Type} [DecidableEq κ] (f : Todo → κ) (k : κ)
    (l : List Todo) (v : Todo) (h : alookup k (mkMap (l.map fun p => (f p, p))) = some v) :
    v ∈ l ∧ f v = k := by
  have hm := alookup_mem k v _ h
  rw [mkMap, List.mem_reverse] at hm
  obtain ⟨q, hq, he⟩ := List.mem_map.mp hm
  obtain ⟨h1, h2⟩ := Prod.mk.injEq .. ▸ he
  exact ⟨h2 ▸ hq, h2 ▸ h1⟩

theorem alookup_mkMap_map_unique {κ : Type} [DecidableEq κ] (f : Todo → κ) (k : κ)
    (l1 : List Todo) (e : Todo) (l2 : List Todo)
    (_h1 : ∀ q ∈ l1, f q ≠ k) (h2 : ∀ q ∈ l2, f q ≠ k) (he : f e = k) :
    alookup k (mkMap ((l1 ++ e :: l2).map fun p => (f p, p))) = some e := by
  rw [mkMap, List.map_append, List.map_cons, List.reverse_append, List.reverse_cons,
    List.append_assoc]
  rw [alookup_append]
  have hA : alookup k (l2.map fun p => (f p, p)).reverse = none := by
    apply alookup_keys_ne
    intro p hp
    rw [List.mem_reverse] at hp
    obtain ⟨q, hq, rfl⟩ := List.mem_map.mp hp
    exact h2 q hq
  rw [hA]
  rw [alookup_append]
  simp only [alookup]
  rw [if_pos he.symm]

theorem findIdxO_append_middle (p : Todo → Bool) (l1 : List Todo) (a : Todo) (l2 : List Todo)
    (h1 : ∀ q ∈ l1, p q = false) (ha : p a = true) :
    findIdxO p (l1 ++ a :: l2) = some l1.length := by
  induction l1 with
  | nil => simp [findIdxO, ha]
  | cons q rest ih =>
    have hq : p q = false := h1 q (List.mem_cons_self q rest)
    have hrest : ∀ x ∈ rest, p x = false := fun x hx => h1 x (List.mem_cons_of_mem q hx)
    show findIdxO p (q :: (rest ++ a :: l2)) = some (rest.length + 1)
    simp only [findIdxO, hq, Bool.false_eq_true, if_false]
    rw [ih hrest]
    rfl

theorem findIdxO_get? (p : Todo → Bool) :
    ∀ (l : List Todo) (i : Nat), findIdxO p l = some i →
      ∃ b, l.get? i = some b ∧ p b = true := by
  intro l
  induction l with
  | nil => intro i h; simp [findIdxO] at h
  | cons t ts ih =>
    intro i h
    simp only [findIdxO] at h
    by_cases ht : p t
    · rw [if_pos ht] at h
      cases h
      exact ⟨t, rfl, ht⟩
    · rw [if_neg ht] at h
      match i, h with
      | i + 1, h =>
        have h2 : findIdxO p ts = some i := by
          cases hfi : findIdxO p ts with
          | none => rw [hfi] at h; simp at h
          | some j => rw [hfi] at h; simp at h; simp [h]
        obtain ⟨b, hb, hpb⟩ := ih i h2
        exact ⟨b, hb, hpb⟩
      | 0, h =>
        exfalso
        cases hfi : findIdxO p ts with
        | none => rw [hfi] at h; simp at h
        | some j => rw [hfi] at h; simp at h

theorem findIdxO_isSome (p : Todo → Bool) :
    ∀ (l : List Todo) (a : Todo), a ∈ l → p a = true → ∃ i, findIdxO p l = some i := by
  intro l
  induction l with
  | nil => intro a ha; simp at ha
  | cons t ts ih =>
    intro a ha hpa
    simp only [findIdxO]
    by_cases ht : p t
    · exact ⟨0, by rw [if_pos ht]⟩
    · rw [if_neg ht]
      rcases List.mem_cons.mp ha with rfl | hmem
      · exact absurd hpa (by simp [ht])
      · obtain ⟨i, hi⟩ := ih a hmem hpa
        exact ⟨i + 1, by rw [hi]; rfl⟩

theorem get?_middle (l1 : List Todo) (a : Todo) (l2 : List Todo) :
    (l1 ++ a :: l2).get? l1.length = some a := by
  induction l1 with
  | nil => rfl
  | cons q rest ih => simpa using ih

theorem set_middle (l1 : List Todo) (a b : Todo) (l2 : List Todo) :
    (l1 ++ a :: l2).set l1.length b = l1 ++ b :: l2 := by
  induction l1 with
  | nil => rfl
  | cons q rest ih => simp [List.set, ih]

theorem mem_set_self : ∀ (l : List Todo) (i : Nat) (v : Todo), i < l.length → v ∈ l.set i v := by
  intro l
  induction l with
  | nil => intro i v h; simp at h
  | cons t ts ih =>
    intro i v h
    match i with
    | 0 => simp [List.set]
    | i + 1 =>
      simp only [List.set]
      exact List.mem_cons_of_mem t (ih i v (by simpa using h))

/-! ## Claims -/

/-- C2: the merger's fingerprint and the deletion handler's fingerprint are
NOT the same function.  For the todo `{title: "Buy milk", due: "2026-01-01"}`
the merge-side fingerprint canonicalizes the due date with `slice(10, 19)`
(yielding `"T00:00:00"`, contradicting the code's own `// YYYY-MM-DD`
comment), while the delete-side tombstone fingerprint uses `slice(0, 10)`
(yielding `"2026-01-01"`), so a fingerprint tombstone recorded on delete is
never found again on merge for any record with a parseable due date. -/
theorem fingerprint_mismatch_on_dated_todo :
    fingerprint { title := some "Buy milk", due := some "2026-01-01" } = "buy milk|T00:00:00||"
    ∧ fingerprintDelete { title := some "Buy milk", due := some "2026-01-01" }
        = "buy milk|2026-01-01||"
    ∧ fingerprint { title := some "Buy milk", due := some "2026-01-01" }
        ≠ fingerprintDelete { title := some "Buy milk", due := some "2026-01-01" } := by
  refine ⟨by decide, by decide, by decide⟩

/-- C6: serializing `{id:"1", title:"A", due:"2026-01-01", priority:"high",
estimatedMinutes:30, done:true}` with `todosToMarkdownTable` and parsing the
result back with `parseTodosFromMarkdownTable` yields exactly one record
with title "A", due "2026-01-01", priority "high", estimatedMinutes 30 and
done true. -/
theorem markdown_round_trip :
    ∃ t, parseTodosFromMarkdownTable (todosToMarkdownTable [roundTripTodo]) = some [t]
      ∧ t.title = some "A" ∧ t.due = some "2026-01-01" ∧ t.priority = some "high"
      ∧ t.estimatedMinutes = some (.num 30) ∧ t.done = some true := by
  exact ⟨roundTripTodo, by decide, rfl, rfl, rfl, rfl, rfl⟩

/-- C10 counterexample: a todo with `done` absent (and due / priority /
estimatedMinutes also absent) renders the done cell `[ ]`, but parsing the
table back yields `done` ABSENT, not `false`: the empty due / priority /
estimate cells are removed by `filter(Boolean)` when the row is split, the
remaining cells shift left, and the `done` column reads an empty string.
This refutes the claim that every done-absent todo round-trips to
`done: false`. -/
theorem markdown_done_absent_counterexample :
    todosToMarkdownTable [c10Todo]
      = "| id | title | due | priority | estimatedMinutes | done |\n| --- | --- | --- | --- | --- | --- |\n| 1 | A |  |  |  | [ ] |"
    ∧ parseTodosFromMarkdownTable (todosToMarkdownTable [c10Todo])
        = some [{ id := some "1", title := some "A", due := some "[ ]" }]
    ∧ (parseTodosFromMarkdownTable (todosToMarkdownTable [c10Todo])).getD [] ≠
        [{ c10Todo with done := some false }] := by
  refine ⟨by decide, by decide, by decide⟩

/-- C10 (amended): a done-absent todo renders exactly the same markdown row
as the same todo with `done: false` (the cell is `[ ]` in both cases); and
when the other cells of the row are nonempty — as for `c10Full` — parsing
the table back does yield `done = false` rather than absent.  When other
optional fields are absent their empty cells are filtered out on parsing,
the columns shift, and `done` comes back absent instead. -/
theorem markdown_done_absent_amended :
    (∀ t : Todo, t.done = none → todoRow t = todoRow { t with done := some false })
    ∧ (parseTodosFromMarkdownTable (todosToMarkdownTable [c10Full])).map
        (List.map Todo.done) = some [some false] := by
  constructor
  · intro t ht
    simp [todoRow, ht]
  · decide

/-- Witness for the amended C10 at a concrete done-absent todo. -/
theorem markdown_done_absent_amended_witness :
    todoRow c10Todo = todoRow { c10Todo with done := some false } :=
  markdown_done_absent_amended.1 c10Todo rfl

/-- Elements of `insertSess x l` are `x` or elements of `l`. -/
theorem mem_insertSess (x : StoredSession) :
    ∀ (l : List StoredSession) (z : StoredSession), z ∈ insertSess x l → z = x ∨ z ∈ l := by
  intro l
  induction l with
  | nil => intro z hz; simpa [insertSess] using hz
  | cons y ys ih =>
    intro z hz
    simp only [insertSess] at hz
    by_cases h : sessBefore x y
    · rw [if_pos h] at hz
      rcases List.mem_cons.mp hz with rfl | hz2
      · exact Or.inl rfl
      · exact Or.inr hz2
    · rw [if_neg h] at hz
      rcases List.mem_cons.mp hz with rfl | hz2
      · exact Or.inr (List.mem_cons_self _ _)
      · rcases ih z hz2 with rfl | hz3
        · exact Or.inl rfl
        · exact Or.inr (List.mem_cons_of_mem _ hz3)

/-- Inserting preserves sortedness under the descending `createdAt` order. -/
theorem insertSess_pairwise (x : StoredSession) :
    ∀ (l : List StoredSession),
      l.Pairwise (fun a b => b.createdAt ≤ a.createdAt) →
      (insertSess x l).Pairwise (fun a b => b.createdAt ≤ a.createdAt) := by
  intro l
  induction l with
  | nil => intro _; simp [insertSess]
  | cons y ys ih =>
    intro h
    rw [List.pairwise_cons] at h
    obtain ⟨hy, hys⟩ := h
    simp only [insertSess]
    by_cases hb : sessBefore x y
    · rw [if_pos hb]
      have hxy : y.createdAt ≤ x.createdAt := by
        by_contra hc
        exact absurd hb (by simp [sessBefore, lt_of_not_le hc])
      rw [List.pairwise_cons]
      constructor
      · intro z hz
        rcases List.mem_cons.mp hz with rfl | hz2
        · exact hxy
        · exact le_trans (hy z hz2) hxy
      · rw [List.pairwise_cons]
        exact ⟨hy, hys⟩
    · rw [if_neg hb]
      have hyx : x.createdAt ≤ y.createdAt := by
        have : y.createdAt < x.createdAt → False := by
          intro hlt
          exact hb (by simp [sessBefore, not_lt.mpr (le_of_lt hlt)])
        by_contra hc
        exact this (lt_of_not_le hc)
      rw [List.pairwise_cons]
      constructor
      · intro z hz
        rcases mem_insertSess x ys z hz with rfl | hz2
        · exact hyx
        · exact hy z hz2
      · exact ih hys

/-- Inserting is a permutation step. -/
theorem insertSess_perm (x : StoredSession) :
    ∀ l : List StoredSession, (insertSess x l).Perm (x :: l) := by
  intro l
  induction l with
  | nil => exact List.Perm.refl _
  | cons y ys ih =>
    simp only [insertSess]
    by_cases hb : sessBefore x y
    · rw [if_pos hb]
    · rw [if_neg hb]
      exact (List.Perm.cons y ih).trans (List.Perm.swap x y ys)

/-- The durable object's sort is descending by `createdAt`. -/
theorem sortSessions_pairwise (stored : List StoredSession) :
    (sortSessions stored).Pairwise (fun a b => b.createdAt ≤ a.createdAt) := by
  unfold sortSessions
  induction stored with
  | nil => simp
  | cons s rest ih => exact insertSess_pairwise s _ ih

/-- The durable object's sort permutes the stored sessions. -/
theorem sortSessions_perm (stored : List StoredSession) :
    (sortSessions stored).Perm stored := by
  unfold sortSessions
  induction stored with
  | nil => exact List.Perm.refl _
  | cons s rest ih => exact (insertSess_perm s _).trans (List.Perm.cons s ih)

/-- C9: the claim is FALSE of the deployed route, by a dispatch slip.  The
worker forwards `GET /api/histories` to `HistoryDO` with the pathname
unchanged, but `HistoryDO.fetch` matches only `/histories` (after stripping
trailing slashes), so for every set of stored sessions the actual response
of `GET /api/histories` is the final 404 `"Not found"` branch (first
conjunct).  The sorted listing the claim (and spec §6) describe is exactly
what the DO's unreachable `GET /histories` branch would return: the stored
sessions sorted by `createdAt` descending — a permutation of them in which
every element's `createdAt` is at least that of each later element
(remaining conjuncts). -/
theorem apiHistories_responds_not_found (stored : List StoredSession) :
    workerHistoriesProxy .GET "/api/histories" stored = .notFoundText
    ∧ (∀ items, workerHistoriesProxy .GET "/api/histories" stored ≠ .histories items)
    ∧ historyDOFetch .GET "/histories" stored = .histories (sortSessions stored)
    ∧ (sortSessions stored).Pairwise (fun a b => b.createdAt ≤ a.createdAt)
    ∧ (sortSessions stored).Perm stored := by
  refine ⟨rfl, ?_, rfl, sortSessions_pairwise stored, sortSessions_perm stored⟩
  intro items h
  rw [show workerHistoriesProxy .GET "/api/histories" stored
    = DOResponse.notFoundText from rfl] at h
  exact DOResponse.noConfusion h

/-- The markdown path never returns an empty list: `todos.length > 0 ? todos : null`. -/
theorem parseMd_some_ne_nil (t : String) :
    ∀ l, parseTodosFromMarkdownTable t = some l → l ≠ [] := by
  intro l hl
  unfold parseTodosFromMarkdownTable at hl
  dsimp only [] at hl
  split at hl
  · exact absurd hl (by simp)
  · split at hl
    · exact absurd hl (by simp)
    · split at hl
      · exact absurd hl (by simp)
      · split at hl
        case isTrue hpos =>
          cases hl
          exact List.length_pos.mp hpos
        case isFalse hneg => exact absurd hl (by simp)

/-- C7 counterexample: the input `"[]"` parses on the JSON path to an empty
(non-null) todo list, the markdown path yields nothing, and the extraction
result is `some []` — non-none with zero records — refuting both halves of
the claim ("none when no record is recovered" and "non-none contains at
least one record"). -/
theorem extract_empty_array_counterexample :
    parseTodosFromJSON "[]" = some [] ∧ parseTodosFromMarkdownTable "[]" = none
    ∧ extractTodos "[]" = some [] ∧ extractTodos "[]" ≠ none := by
  refine ⟨by decide, by decide, by decide, by decide⟩

/-- C7 (amended): the extraction result is none exactly when the JSON path
yields nothing and the markdown path yields no record; a non-none result
either contains at least one record or is a (possibly empty) array returned
by the JSON path, which can be empty — e.g. for input `"[]"`. -/
theorem extract_none_characterization (t : String) :
    (extractTodos t = none ↔ parseTodosFromJSON t = none ∧ parseTodosFromMarkdownTable t = none)
    ∧ (∀ l, parseTodosFromMarkdownTable t = some l → l ≠ [])
    ∧ (∀ l, extractTodos t = some l → l ≠ [] ∨ parseTodosFromJSON t = some l) := by
  refine ⟨?_, parseMd_some_ne_nil t, ?_⟩
  · unfold extractTodos
    cases h : parseTodosFromJSON t with
    | some l => simp
    | none => simp
  · intro l hl
    unfold extractTodos at hl
    cases h : parseTodosFromJSON t with
    | some l2 =>
      rw [h] at hl
      injection hl with he
      subst he
      exact Or.inr rfl
    | none =>
      rw [h] at hl
      exact Or.inl (parseMd_some_ne_nil t l hl)

/-- Witness for the C7 characterization at a concrete non-todo input. -/
theorem extract_none_characterization_witness : extractTodos "just chatting" = none :=
  (extract_none_characterization "just chatting").1.mpr ⟨by decide, by decide⟩

/-- The done-handling step changes no field other than `done`. -/
theorem dropDone_preserves (env : MergeEnv) (pt base : Todo) :
    (dropDoneIfStale env pt base).id = pt.id ∧ (dropDoneIfStale env pt base).title = pt.title
    ∧ (dropDoneIfStale env pt base).due = pt.due
    ∧ (dropDoneIfStale env pt base).priority = pt.priority
    ∧ (dropDoneIfStale env pt base).estimatedMinutes = pt.estimatedMinutes
    ∧ (dropDoneIfStale env pt base).createdAt = pt.createdAt := by
  cases h : pt.done with
  | none => simp [dropDoneIfStale, h]
  | some b =>
    simp only [dropDoneIfStale, h]
    split
    · simp
    · split <;> simp

/-- C4: defined-fields-only patch.  When an incoming record matches an
existing record, every field the incoming record omits keeps its existing
value (first conjunct, field by field over the patch applied at app.tsx
line 436); and concretely, merging `{id:"t1", due:"2026-01-01"}` into
`{id:"t1", title:"Buy milk", priority:"low"}` yields
`{id:"t1", title:"Buy milk", priority:"low", due:"2026-01-01"}` with title
and priority untouched. -/
theorem merge_defined_fields_only :
    (∀ (env : MergeEnv) (raw base : Todo),
      (raw.id = none → (patchExisting env raw base).id = base.id)
      ∧ (raw.title = none → (patchExisting env raw base).title = base.title)
      ∧ (raw.due = none → (patchExisting env raw base).due = base.due)
      ∧ (raw.priority = none → (patchExisting env raw base).priority = base.priority)
      ∧ (raw.estimatedMinutes = none →
          (patchExisting env raw base).estimatedMinutes = base.estimatedMinutes)
      ∧ (raw.done = none → (patchExisting env raw base).done = base.done)
      ∧ (raw.createdAt = none → (patchExisting env raw base).createdAt = base.createdAt))
    ∧ mergeIncomingTodos { now := 7 } [c4Incoming] [c4Base]
        = [{ id := some "t1", title := some "Buy milk", due := some "2026-01-01",
             priority := some "low" }] := by
  constructor
  · intro env raw base
    obtain ⟨hid, hti, hdu, hpr, hes, hca⟩ := dropDone_preserves env (partialOf raw) base
    refine ⟨?_, ?_, ?_, ?_, ?_, ?_, ?_⟩
    · intro h
      simp only [patchExisting, spreadDefined]
      rw [hid]
      simp [partialOf, h]
    · intro h
      simp only [patchExisting, spreadDefined]
      rw [hti]
      simp [partialOf, h]
    · intro h
      simp only [patchExisting, spreadDefined]
      rw [hdu]
      simp [partialOf, h]
    · intro h
      simp only [patchExisting, spreadDefined]
      rw [hpr]
      simp [partialOf, h]
    · intro h
      simp only [patchExisting, spreadDefined]
      rw [hes]
      simp [partialOf, h]
    · intro h
      have hpd : (partialOf raw).done = none := by simp [partialOf, h]
      simp [patchExisting, spreadDefined, dropDoneIfStale, hpd]
    · intro h
      simp only [patchExisting, spreadDefined]
      rw [hca]
      simp [partialOf, h]
  · decide

/-- Witness for the defined-fields-only patch at a concrete all-absent
incoming record. -/
theorem merge_defined_fields_only_witness :
    (patchExisting { now := 7 } {} c4Base).id = c4Base.id
    ∧ (patchExisting { now := 7 } {} c4Base).title = c4Base.title
    ∧ (patchExisting { now := 7 } {} c4Base).due = c4Base.due
    ∧ (patchExisting { now := 7 } {} c4Base).priority = c4Base.priority
    ∧ (patchExisting { now := 7 } {} c4Base).estimatedMinutes = c4Base.estimatedMinutes
    ∧ (patchExisting { now := 7 } {} c4Base).done = c4Base.done
    ∧ (patchExisting { now := 7 } {} c4Base).createdAt = c4Base.createdAt := by
  obtain ⟨h1, h2, h3, h4, h5, h6, h7⟩ := merge_defined_fields_only.1 { now := 7 } {} c4Base
  exact ⟨h1 rfl, h2 rfl, h3 rfl, h4 rfl, h5 rfl, h6 rfl, h7 rfl⟩

/-- A map whose function fixes every element is the identity. -/
theorem map_eq_self_of (f : Todo → Todo) (l : List Todo) (h : ∀ q ∈ l, f q = q) :
    l.map f = l := by
  induction l with
  | nil => rfl
  | cons q rest ih =>
    rw [List.map_cons, h q (List.mem_cons_self q rest),
      ih fun a ha => h a (List.mem_cons_of_mem q ha)]

/-- Toggling decomposes around the unique record with the toggled id. -/
theorem onToggle_decomp (t0 : Nat) (x : String) (l1 : List Todo) (p : Todo) (l2 : List Todo)
    (h1 : ∀ q ∈ l1, q.id ≠ some x) (h2 : ∀ q ∈ l2, q.id ≠ some x) (hp : p.id = some x) :
    onToggleTodos t0 x (l1 ++ p :: l2)
      = l1 ++ { p with done := some (!(p.done.getD false)), createdAt := some t0 } :: l2 := by
  unfold onToggleTodos
  rw [List.map_append, List.map_cons]
  congr 1
  · exact map_eq_self_of _ l1 fun q hq => by rw [if_neg (by simp [h1 q hq])]
  · congr 1
    · rw [if_pos (by simp [hp])]
    · exact map_eq_self_of _ l2 fun q hq => by rw [if_neg (by simp [h2 q hq])]

/-- The loop body leaves the state unchanged when the fingerprint tombstone
check fires. -/
theorem mergeStep_skip_fp (env : MergeEnv) (st : MState) (raw : Todo)
    (h : tsHit (alookup (fingerprint raw) env.deletedFps) (raw.createdAt.getD 0) = true) :
    mergeStep env st raw = st := by
  unfold mergeStep
  rw [h]
  simp

/-- The loop body leaves the state unchanged when the identifier tombstone
check fires. -/
theorem mergeStep_skip_id (env : MergeEnv) (st : MState) (raw : Todo)
    (h2 : tsHit (idDelLookup env raw) (raw.createdAt.getD 0) = true) :
    mergeStep env st raw = st := by
  unfold mergeStep
  rw [h2]
  split
  · rfl
  · simp

/-- The loop body patches in place when the tombstone checks pass and an
existing record is found. -/
theorem mergeStep_patch (env : MergeEnv) (st : MState) (raw : Todo) (ex base : Todo) (idx : Nat)
    (h1 : tsHit (alookup (fingerprint raw) env.deletedFps) (raw.createdAt.getD 0) = false)
    (h2 : tsHit (idDelLookup env raw) (raw.createdAt.getD 0) = false)
    (hex : existingLookup st raw = some ex)
    (hfind : findIdxO (fun r => r.id == ex.id) st.result = some idx)
    (hget : st.result.get? idx = some base) :
    mergeStep env st raw
      = { st with result := st.result.set idx (patchExisting env raw base) } := by
  unfold mergeStep
  rw [h1, h2, hex]
  simp only [Bool.false_eq_true, if_false]
  rw [hfind]
  simp only []
  rw [hget]

/-- The loop body appends a fresh record when the tombstone checks pass and
no existing record matches. -/
theorem mergeStep_insert (env : MergeEnv) (st : MState) (raw : Todo)
    (h1 : tsHit (alookup (fingerprint raw) env.deletedFps) (raw.createdAt.getD 0) = false)
    (h2 : tsHit (idDelLookup env raw) (raw.createdAt.getD 0) = false)
    (hex : existingLookup st raw = none) :
    mergeStep env st raw = insertNew env st raw := by
  unfold mergeStep
  rw [h1, h2, hex]
  simp only [Bool.false_eq_true, if_false]

/-- When the incoming record carries a truthy id, the by-id lookup dominates
the existing-record lookup as soon as it succeeds. -/
theorem existingLookup_byId (st : MState) (raw : Todo) (x : String) (e : Todo)
    (hid : raw.id = some x) (hx : x ≠ "")
    (hby : alookup (some x) st.byId = some e) :
    existingLookup st raw = some e := by
  unfold existingLookup
  have hpt : (partialOf raw).id = some x := hid
  rw [hpt]
  rw [show optStrTruthy (some x) = true by simp [optStrTruthy, hx]]
  simp only [if_true]
  rw [hby]
  rfl

/-- C5: toggle wins over echo.  First conjunct — the full scenario: a record
with identifier `x` is toggled locally at time `t0`; a merge at time `now`
(less than 10 seconds later) of an incoming record for the same identifier
with `done: false` and a `createdAt` not newer than the toggle leaves the
record's `done` at the locally toggled value.  Second conjunct — the patch
applies an incoming `done` exactly when no local toggle of the record is
within the 10-second window AND the incoming `createdAt` (absent → 0) is
strictly newer than the existing one. -/
theorem toggle_wins_over_echo :
    (∀ (l1 l2 : List Todo) (p r : Todo) (x : String) (t0 now : Nat) (tt0 : TsMap),
      p.id = some x → x ≠ "" → r.id = some x → r.done = some false →
      (∀ q ∈ l1, q.id ≠ some x) → (∀ q ∈ l2, q.id ≠ some x) →
      t0 ≠ 0 → now - t0 < 10000 → r.createdAt.getD 0 ≤ t0 →
      ∃ m, (mergeIncomingTodos (envAfterToggle x t0 now tt0) [r]
              (onToggleTodos t0 x (l1 ++ p :: l2))).get? l1.length = some m
        ∧ m.done = some (!(p.done.getD false)))
    ∧ (∀ (env : MergeEnv) (raw base : Todo) (b : Bool), raw.done = some b →
      (let tts := (match base.id with
        | some s => alookup s env.toggleTimes
        | none => none).getD 0
      ((tts ≠ 0 ∧ env.now - tts < 10000) ∨ raw.createdAt.getD 0 ≤ base.createdAt.getD 0 →
        (patchExisting env raw base).done = base.done)
      ∧ (¬(tts ≠ 0 ∧ env.now - tts < 10000) → base.createdAt.getD 0 < raw.createdAt.getD 0 →
        (patchExisting env raw base).done = some b))) := by
  constructor
  · intro l1 l2 p r x t0 now tt0 hp hx hr hrd h1 h2 ht0 hwin _hold
    have hdec := onToggle_decomp t0 x l1 p l2 h1 h2 hp
    set p' : Todo := { p with done := some (!(p.done.getD false)), createdAt := some t0 }
      with hp'def
    have hp' : p'.id = some x := hp
    set env : MergeEnv := envAfterToggle x t0 now tt0 with henv
    unfold mergeIncomingTodos
    rw [hdec, List.foldl_cons, List.foldl_nil]
    have hskip1 : tsHit (alookup (fingerprint r) env.deletedFps) (r.createdAt.getD 0) = false := by
      rw [show env.deletedFps = [] from rfl]
      rfl
    have hskip2 : tsHit (idDelLookup env r) (r.createdAt.getD 0) = false := by
      unfold idDelLookup
      rw [hr]
      show tsHit (if x ≠ "" then alookup x env.deleteTimes else none) (r.createdAt.getD 0) = false
      rw [if_pos hx, show env.deleteTimes = ([] : TsMap) from rfl]
      rfl
    have hby : alookup (some x) (initState (l1 ++ p' :: l2)).byId = some p' := by
      rw [show (initState (l1 ++ p' :: l2)).byId
        = mkMap ((l1 ++ p' :: l2).map fun q => (q.id, q)) from rfl]
      exact alookup_mkMap_map_unique Todo.id (some x) l1 p' l2 h1 h2 hp'
    have hex := existingLookup_byId (initState (l1 ++ p' :: l2)) r x p' hr hx hby
    have hres : (initState (l1 ++ p' :: l2)).result = l1 ++ p' :: l2 := rfl
    have hfind : findIdxO (fun q => q.id == p'.id) (initState (l1 ++ p' :: l2)).result
        = some l1.length := by
      rw [hres]
      exact findIdxO_append_middle _ l1 p' l2 (fun q hq => by simp [hp', hp, h1 q hq]) (by simp)
    have hget : (initState (l1 ++ p' :: l2)).result.get? l1.length = some p' := by
      rw [hres]
      exact get?_middle l1 p' l2
    rw [mergeStep_patch env (initState (l1 ++ p' :: l2)) r p' p' l1.length hskip1 hskip2 hex
      hfind hget]
    refine ⟨patchExisting env r p', ?_, ?_⟩
    · show ((initState (l1 ++ p' :: l2)).result.set l1.length (patchExisting env r p')).get?
        l1.length = some (patchExisting env r p')
      rw [hres, set_middle]
      exact get?_middle ..
    · have hptd : (partialOf r).done = some false := hrd
      have htl : alookup x env.toggleTimes = some t0 := by
        rw [show env.toggleTimes = (x, t0) :: tt0 from rfl]
        simp [alookup]
      simp only [patchExisting, dropDoneIfStale, hptd, hp', htl, Option.getD_some]
      rw [if_pos (by simp [hp, htl, ht0, show env.now = now from rfl, hwin])]
      simp [spreadDefined, hp'def]
  · intro env raw base b hb
    have hptd : (partialOf raw).done = some b := hb
    have hptc : (partialOf raw).createdAt = raw.createdAt := rfl
    constructor
    · intro hcond
      simp only [patchExisting, dropDoneIfStale, hptd]
      split
      · simp [spreadDefined]
      · split
        · simp [spreadDefined]
        · rename_i hrecF hincF
          exfalso
          rcases hcond with hrec | hold2
          · exact hrecF (by simp only [decide_eq_true_eq, Bool.and_eq_true]; exact hrec)
          · exact hincF (by rw [hptc]; exact hold2)
    · intro hnr hnew
      simp only [patchExisting, dropDoneIfStale, hptd]
      split
      · rename_i hrecT
        exfalso
        exact hnr (by simpa only [decide_eq_true_eq, Bool.and_eq_true] using hrecT)
      · split
        · rename_i hrecF hincT
          exfalso
          rw [hptc] at hincT
          omega
        · simp [spreadDefined, hptd]

/-- Witness for C5: a record toggled at 60 and an echo with `done: false`,
`createdAt` 55, merged at 65. -/
theorem toggle_wins_over_echo_witness :
    ∃ m, (mergeIncomingTodos (envAfterToggle "x" 60 65 []) [c5Echo]
            (onToggleTodos 60 "x" ([] ++ c5Existing :: []))).get? 0 = some m
      ∧ m.done = some (!(c5Existing.done.getD false)) := by
  exact toggle_wins_over_echo.1 [] [] c5Existing c5Echo "x" 60 65 [] rfl (by decide) rfl rfl
    (by intro q hq; simp at hq) (by intro q hq; simp at hq) (by decide) (by decide) (by decide)

/-- A tombstone map whose timestamps are all at most `now` never suppresses
a record strictly newer than `now`. -/
theorem tsHit_false_of_newer (m : TsMap) (k : String) (inc now : Nat)
    (hall : ∀ p ∈ m, p.2 ≤ now) (hinc : now < inc) :
    tsHit (alookup k m) inc = false := by
  cases h : alookup k m with
  | none => rfl
  | some ts =>
    have hmem := alookup_mem k ts m h
    have hle : ts ≤ now := hall (k, ts) hmem
    simp only [tsHit]
    rw [Bool.and_eq_false_iff]
    right
    simp only [decide_eq_false_iff_not, not_le]
    omega

/-- Any record found by the existing-record lookup over the initial maps is
a member of the current list. -/
theorem existingLookup_initState_mem (l : List Todo) (raw ex : Todo)
    (h : existingLookup (initState l) raw = some ex) : ex ∈ l := by
  unfold existingLookup at h
  cases hby : (if optStrTruthy (partialOf raw).id
      then alookup (partialOf raw).id (initState l).byId else none) with
  | some e =>
    rw [hby] at h
    have he : e = ex := by injection h
    split at hby
    · exact he ▸ (alookup_mkMap_map_mem Todo.id _ l e hby).1
    · exact absurd hby (by simp)
  | none =>
    rw [hby] at h
    simp only [Option.none_or] at h
    cases hfp : alookup (fpCandidateOf raw) (initState l).byFp with
    | some e =>
      rw [hfp] at h
      have he : e = ex := by injection h
      exact he ▸ (alookup_mkMap_map_mem fingerprint _ l e hfp).1
    | none =>
      rw [hfp] at h
      simp only [Option.none_or] at h
      exact (alookup_mkMap_map_mem (fun p => titleKey p.title) _ l ex h).1

/-- The id of a patched record: the incoming id when defined, the existing
one otherwise. -/
theorem patchExisting_id (env : MergeEnv) (raw base : Todo) :
    (patchExisting env raw base).id = (partialOf raw).id.or base.id := by
  simp only [patchExisting, spreadDefined]
  rw [(dropDone_preserves env (partialOf raw) base).1]

/-- C1: tombstone suppression by identifier.  After deleting the todo with
identifier `x` (recording a deletion timestamp `now` for `x`), merging an
incoming record with that id whose `createdAt` is absent (treated as 0) or
not newer than the deletion timestamp leaves the list without any record of
id `x`; merging one whose `createdAt` is strictly newer than the deletion
timestamp re-inserts a record with id `x`. -/
theorem tombstone_suppression_by_id (prev : List Todo) (tt0 : TsMap) (x : String)
    (now : Nat) (r : Todo) (hnow : now ≠ 0) (hr : r.id = some x) (hx : x ≠ "") :
    (r.createdAt.getD 0 ≤ now →
      ∀ t ∈ mergeIncomingTodos (onDeleteEnv { now := now, toggleTimes := tt0 } prev x) [r]
          (onDeleteTodos prev x), t.id ≠ some x)
    ∧ (now < r.createdAt.getD 0 →
      ∃ t ∈ mergeIncomingTodos (onDeleteEnv { now := now, toggleTimes := tt0 } prev x) [r]
          (onDeleteTodos prev x), t.id = some x) := by
  set env1 : MergeEnv := onDeleteEnv { now := now, toggleTimes := tt0 } prev x with henv1
  set todos1 : List Todo := onDeleteTodos prev x with htodos1
  have hdel : env1.deleteTimes = [(x, now)] := by
    rw [henv1]
    unfold onDeleteEnv
    cases prev.find? (fun t => t.id == some x) <;> rfl
  have hfps : ∀ p ∈ env1.deletedFps, p.2 ≤ now := by
    rw [henv1]
    unfold onDeleteEnv
    cases prev.find? (fun t => t.id == some x) with
    | none => intro p hp; simp at hp
    | some d =>
      intro p hp
      simp only [List.mem_cons] at hp
      rcases hp with rfl | hp
      · rfl
      · simp at hp
  have hnot1 : ∀ t ∈ todos1, t.id ≠ some x := by
    intro t ht
    rw [htodos1] at ht
    unfold onDeleteTodos at ht
    have := (List.mem_filter.mp ht).2
    simpa using this
  have hsingle : mergeIncomingTodos env1 [r] todos1
      = (mergeStep env1 (initState todos1) r).result := by
    unfold mergeIncomingTodos
    rw [List.foldl_cons, List.foldl_nil]
  constructor
  · intro hle t htm
    rw [hsingle] at htm
    by_cases hfp : tsHit (alookup (fingerprint r) env1.deletedFps) (r.createdAt.getD 0) = true
    · rw [mergeStep_skip_fp _ _ _ hfp] at htm
      exact hnot1 t htm
    · have hid : tsHit (idDelLookup env1 r) (r.createdAt.getD 0) = true := by
        unfold idDelLookup
        rw [hr]
        show tsHit (if x ≠ "" then alookup x env1.deleteTimes else none)
          (r.createdAt.getD 0) = true
        rw [if_pos hx, hdel]
        simp [alookup, tsHit, hnow, hle]
      rw [mergeStep_skip_id _ _ _ hid] at htm
      exact hnot1 t htm
  · intro hgt
    rw [hsingle]
    have hfp : tsHit (alookup (fingerprint r) env1.deletedFps) (r.createdAt.getD 0) = false :=
      tsHit_false_of_newer _ _ _ now hfps hgt
    have hid : tsHit (idDelLookup env1 r) (r.createdAt.getD 0) = false := by
      unfold idDelLookup
      rw [hr]
      show tsHit (if x ≠ "" then alookup x env1.deleteTimes else none)
        (r.createdAt.getD 0) = false
      rw [if_pos hx, hdel, show alookup x [(x, now)] = some now by simp [alookup]]
      simp only [tsHit]
      rw [Bool.and_eq_false_iff]
      right
      simp only [decide_eq_false_iff_not, not_le]
      omega
    have hptid : (partialOf r).id = some x := hr
    cases hel : existingLookup (initState todos1) r with
    | some ex =>
      have hmem : ex ∈ todos1 := existingLookup_initState_mem todos1 r ex hel
      obtain ⟨i, hi⟩ := findIdxO_isSome (fun q => q.id == ex.id) todos1 ex hmem (by simp)
      obtain ⟨base, hbase, _⟩ := findIdxO_get? _ todos1 i hi
      rw [mergeStep_patch env1 (initState todos1) r ex base i hfp hid hel hi hbase]
      refine ⟨patchExisting env1 r base, ?_, ?_⟩
      · show patchExisting env1 r base ∈ todos1.set i (patchExisting env1 r base)
        apply mem_set_self
        obtain ⟨hlt, _⟩ := List.get?_eq_some.mp hbase
        exact hlt
      · rw [patchExisting_id, hptid]
        rfl
    | none =>
      rw [mergeStep_insert env1 (initState todos1) r hfp hid hel]
      refine ⟨mkNewTodo env1 (initState todos1).ctr r, ?_, ?_⟩
      · show mkNewTodo env1 (initState todos1).ctr r ∈ todos1 ++ [mkNewTodo env1 _ r]
        exact List.mem_append_right _ (List.mem_singleton_self _)
      · simp only [mkNewTodo]
        rw [hptid]
        rfl

/-- Witness for C1: deleting `{id:"t1"}` at time 100 then merging an echo of
it without `createdAt` (suppressed) and one with `createdAt` 101
(re-inserted). -/
theorem tombstone_suppression_by_id_witness :
    (∀ t ∈ mergeIncomingTodos (onDeleteEnv { now := 100, toggleTimes := [] }
        [{ id := some "t1" }] "t1") [{ id := some "t1" }]
        (onDeleteTodos [{ id := some "t1" }] "t1"), t.id ≠ some "t1")
    ∧ ∃ t ∈ mergeIncomingTodos (onDeleteEnv { now := 100, toggleTimes := [] }
        [{ id := some "t1" }] "t1") [{ id := some "t1", createdAt := some 101 }]
        (onDeleteTodos [{ id := some "t1" }] "t1"), t.id = some "t1" := by
  constructor
  · exact (tombstone_suppression_by_id [{ id := some "t1" }] [] "t1" 100
      { id := some "t1" } (by decide) rfl (by decide)).1 (by decide)
  · exact (tombstone_suppression_by_id [{ id := some "t1" }] [] "t1" 100
      { id := some "t1", createdAt := some 101 } (by decide) rfl (by decide)).2 (by decide)

/-- An `Option.or` chain is none only when both sides are. -/
theorem or_eq_none {α : Type} {a b : Option α} (h : a.or b = none) :
    a = none ∧ b = none := by
  cases a with
  | none => exact ⟨rfl, h⟩
  | some v => simp [Option.or] at h

/-- A key present in an association list is found. -/
theorem alookup_isSome_of_mem {κ α : Type} [DecidableEq κ] (k : κ) (v : α) :
    ∀ l : List (κ × α), (k, v) ∈ l → (alookup k l).isSome := by
  intro l hm
  induction l with
  | nil => simp at hm
  | cons p rest ih =>
    obtain ⟨k1, w⟩ := p
    simp only [alookup]
    by_cases he : k = k1
    · rw [if_pos he]; rfl
    · rw [if_neg he]
      rcases List.mem_cons.mp hm with hh | ht
      · exact absurd (congrArg Prod.fst hh) he
      · exact ih ht

/-- If the by-id map lookup fails, no record of the list has that id. -/
theorem byId_none_no_id (l : List Todo) (x : String)
    (h : alookup (some x) (initState l).byId = none) : ∀ p ∈ l, p.id ≠ some x := by
  intro p hp hpx
  have hmem : ((some x : Option String), p) ∈ (l.map fun q => (q.id, q)).reverse := by
    rw [List.mem_reverse]
    exact List.mem_map.mpr ⟨p, hp, by rw [hpx]⟩
  have := alookup_isSome_of_mem (some x) p _ hmem
  rw [show (initState l).byId = (l.map fun q => (q.id, q)).reverse from rfl] at h
  rw [h] at this
  simp at this

/-- Two todos with equal fields are equal. -/
theorem todo_ext (a b : Todo) (h1 : a.id = b.id) (h2 : a.title = b.title)
    (h3 : a.due = b.due) (h4 : a.priority = b.priority)
    (h5 : a.estimatedMinutes = b.estimatedMinutes) (h6 : a.done = b.done)
    (h7 : a.createdAt = b.createdAt) : a = b := by
  cases a; cases b
  simp_all

/-- Applying the in-place patch for the same incoming record twice is the
same as applying it once. -/
theorem patchExisting_idem (env : MergeEnv) (r b : Todo) :
    patchExisting env r (patchExisting env r b) = patchExisting env r b := by
  obtain ⟨h1a, h1b, h1c, h1d, h1e, h1f⟩ := dropDone_preserves env (partialOf r) b
  obtain ⟨h2a, h2b, h2c, h2d, h2e, h2f⟩ :=
    dropDone_preserves env (partialOf r) (patchExisting env r b)
  have hPid : (patchExisting env r b).id = (partialOf r).id.or b.id := by
    simp only [patchExisting, spreadDefined]; rw [h1a]
  have hPti : (patchExisting env r b).title = (partialOf r).title.or b.title := by
    simp only [patchExisting, spreadDefined]; rw [h1b]
  have hPdu : (patchExisting env r b).due = (partialOf r).due.or b.due := by
    simp only [patchExisting, spreadDefined]; rw [h1c]
  have hPpr : (patchExisting env r b).priority = (partialOf r).priority.or b.priority := by
    simp only [patchExisting, spreadDefined]; rw [h1d]
  have hPes : (patchExisting env r b).estimatedMinutes
      = (partialOf r).estimatedMinutes.or b.estimatedMinutes := by
    simp only [patchExisting, spreadDefined]; rw [h1e]
  have hPca : (patchExisting env r b).createdAt = (partialOf r).createdAt.or b.createdAt := by
    simp only [patchExisting, spreadDefined]; rw [h1f]
  have hdone : (dropDoneIfStale env (partialOf r) (patchExisting env r b)).done.or
      (patchExisting env r b).done = (patchExisting env r b).done := by
    cases hd : (partialOf r).done with
    | none =>
      rw [show dropDoneIfStale env (partialOf r) (patchExisting env r b) = partialOf r by
        simp [dropDoneIfStale, hd]]
      rw [hd]
      rfl
    | some b0 =>
      simp only [dropDoneIfStale, hd]
      split
      · simp
      · rw [if_pos ?hle]
        · simp
        case hle =>
          rw [hPca]
          cases (partialOf r).createdAt with
          | none => exact Nat.zero_le _
          | some c => simp [Option.or]
  show spreadDefined (patchExisting env r b)
    (dropDoneIfStale env (partialOf r) (patchExisting env r b)) = patchExisting env r b
  apply todo_ext <;> simp only [spreadDefined]
  · rw [h2a, hPid]; cases (partialOf r).id <;> rfl
  · rw [h2b, hPti]; cases (partialOf r).title <;> rfl
  · rw [h2c, hPdu]; cases (partialOf r).due <;> rfl
  · rw [h2d, hPpr]; cases (partialOf r).priority <;> rfl
  · rw [h2e, hPes]; cases (partialOf r).estimatedMinutes <;> rfl
  · exact hdone
  · rw [h2f, hPca]; cases (partialOf r).createdAt <;> rfl

/-- Patching a freshly inserted record with the same incoming record that
produced it changes nothing. -/
theorem patchExisting_mkNew (env : MergeEnv) (k : Nat) (r : Todo) :
    patchExisting env r (mkNewTodo env k r) = mkNewTodo env k r := by
  obtain ⟨h2a, h2b, h2c, h2d, h2e, h2f⟩ :=
    dropDone_preserves env (partialOf r) (mkNewTodo env k r)
  have hdone : (dropDoneIfStale env (partialOf r) (mkNewTodo env k r)).done.or
      (mkNewTodo env k r).done = (mkNewTodo env k r).done := by
    cases hd : (partialOf r).done with
    | none =>
      rw [show dropDoneIfStale env (partialOf r) (mkNewTodo env k r) = partialOf r by
        simp [dropDoneIfStale, hd]]
      rw [hd]
      rfl
    | some b0 =>
      have hntd : (mkNewTodo env k r).done = some b0 := by
        show some ((partialOf r).done.getD false) = some b0
        rw [hd]
        rfl
      simp only [dropDoneIfStale, hd]
      split
      · rw [hntd]; rfl
      · split
        · rw [hntd]; rfl
        · rw [hd, hntd]; rfl
  show spreadDefined (mkNewTodo env k r)
    (dropDoneIfStale env (partialOf r) (mkNewTodo env k r)) = mkNewTodo env k r
  apply todo_ext <;> simp only [spreadDefined]
  · rw [h2a]
    show (partialOf r).id.or (some ((partialOf r).id.getD (genId env.now k)))
      = some ((partialOf r).id.getD (genId env.now k))
    cases (partialOf r).id <;> rfl
  · rw [h2b]
    show (partialOf r).title.or
        (some (jsTrim ((partialOf r).title.getD (r.title.getD "Untitled"))))
      = some (jsTrim ((partialOf r).title.getD (r.title.getD "Untitled")))
    cases hti : r.title with
    | none =>
      rw [show (partialOf r).title = none by simp [partialOf, hti]]
      rfl
    | some s =>
      by_cases hs : s = ""
      · rw [show (partialOf r).title = none by simp [partialOf, hti, hs]]
        rfl
      · rw [show (partialOf r).title = some (jsTrim s) by simp [partialOf, hti, hs]]
        simp [Option.or, jsTrim_idem]
  · rw [h2c]
    show r.due.or ((partialOf r).due.or r.due) = (partialOf r).due.or r.due
    rw [show (partialOf r).due = r.due from rfl]
    cases r.due <;> rfl
  · rw [h2d]
    show r.priority.or ((partialOf r).priority.or r.priority)
      = (partialOf r).priority.or r.priority
    rw [show (partialOf r).priority = r.priority from rfl]
    cases r.priority <;> rfl
  · rw [h2e]
    show r.estimatedMinutes.or (mkNewTodo env k r).estimatedMinutes
      = (mkNewTodo env k r).estimatedMinutes
    rw [show (mkNewTodo env k r).estimatedMinutes
      = (match (partialOf r).estimatedMinutes with
         | some n => some n
         | none => r.estimatedMinutes) from rfl]
    rw [show (partialOf r).estimatedMinutes = r.estimatedMinutes from rfl]
    cases r.estimatedMinutes <;> rfl
  · exact hdone
  · rw [h2f]
    show r.createdAt.or (some ((partialOf r).createdAt.getD (r.createdAt.getD env.now)))
      = some ((partialOf r).createdAt.getD (r.createdAt.getD env.now))
    rw [show (partialOf r).createdAt = r.createdAt from rfl]
    cases r.createdAt <;> rfl

/-- C3 counterexample: merging the batch `idemBatch` twice into `idemPrev`
does NOT yield the same list as merging it once.  The first incoming record
(no id, title "a") patches record `E` by title match; the second (id `E`,
title "b") then retitles `E`, destroying the title key the first record
matched by.  On the second merge the first record matches nothing and is
re-inserted, so the list grows from one record to two. -/
theorem merge_not_idempotent :
    mergeIncomingTodos idemEnv idemBatch (mergeIncomingTodos idemEnv idemBatch idemPrev)
      ≠ mergeIncomingTodos idemEnv idemBatch idemPrev := by
  decide

/-- C3 (amended): merging a batch consisting of a single incoming record
that carries a nonempty identifier is idempotent, provided the current
list's identifiers are pairwise distinct: merging it into the result of
merging it once changes nothing. -/
theorem merge_idempotent_single_id (env : MergeEnv) (prev : List Todo) (r : Todo) (x : String)
    (hr : r.id = some x) (hx : x ≠ "")
    (hdist : prev.Pairwise fun a b => a.id ≠ b.id) :
    mergeIncomingTodos env [r] (mergeIncomingTodos env [r] prev)
      = mergeIncomingTodos env [r] prev := by
  have hsingle : ∀ l : List Todo,
      mergeIncomingTodos env [r] l = (mergeStep env (initState l) r).result := by
    intro l
    unfold mergeIncomingTodos
    rw [List.foldl_cons, List.foldl_nil]
  have hptid : (partialOf r).id = some x := hr
  by_cases hfp : tsHit (alookup (fingerprint r) env.deletedFps) (r.createdAt.getD 0) = true
  · have e1 : ∀ l : List Todo, mergeIncomingTodos env [r] l = l := by
      intro l
      rw [hsingle l, mergeStep_skip_fp _ _ _ hfp]
      rfl
    rw [e1, e1]
  · simp only [Bool.not_eq_true] at hfp
    by_cases hid : tsHit (idDelLookup env r) (r.createdAt.getD 0) = true
    · have e1 : ∀ l : List Todo, mergeIncomingTodos env [r] l = l := by
        intro l
        rw [hsingle l, mergeStep_skip_id _ _ _ hid]
        rfl
      rw [e1, e1]
    · simp only [Bool.not_eq_true] at hid
      cases hel : existingLookup (initState prev) r with
      | none =>
        have hbyid : alookup (some x) (initState prev).byId = none := by
          unfold existingLookup at hel
          have h1 := (or_eq_none hel).1
          rw [hptid] at h1
          rw [if_pos (by simp [optStrTruthy, hx])] at h1
          exact h1
        have hnoid : ∀ p ∈ prev, p.id ≠ some x := byId_none_no_id prev x hbyid
        have e1 : mergeIncomingTodos env [r] prev
            = prev ++ [mkNewTodo env (initState prev).ctr r] := by
          rw [hsingle prev, mergeStep_insert env (initState prev) r hfp hid hel]
          rfl
        rw [e1]
        have hntid : (mkNewTodo env (initState prev).ctr r).id = some x := by
          show some ((partialOf r).id.getD (genId env.now (initState prev).ctr)) = some x
          rw [hptid]
          rfl
        have hby2 : alookup (some x)
            (initState (prev ++ [mkNewTodo env (initState prev).ctr r])).byId
            = some (mkNewTodo env (initState prev).ctr r) := by
          rw [show (initState (prev ++ [mkNewTodo env (initState prev).ctr r])).byId
            = mkMap ((prev ++ mkNewTodo env (initState prev).ctr r :: []).map
              fun q => (q.id, q)) from rfl]
          exact alookup_mkMap_map_unique Todo.id (some x) prev _ [] hnoid
            (by intro q hq; simp at hq) hntid
        have hex2 := existingLookup_byId
          (initState (prev ++ [mkNewTodo env (initState prev).ctr r])) r x _ hr hx hby2
        have hfind2 : findIdxO
            (fun q => q.id == (mkNewTodo env (initState prev).ctr r).id)
            (initState (prev ++ [mkNewTodo env (initState prev).ctr r])).result
            = some prev.length := by
          rw [show (initState (prev ++ [mkNewTodo env (initState prev).ctr r])).result
            = prev ++ mkNewTodo env (initState prev).ctr r :: [] from rfl]
          exact findIdxO_append_middle _ prev _ []
            (fun q hq => by simp [hntid, hnoid q hq]) (by simp)
        have hget2 : (initState (prev ++ [mkNewTodo env (initState prev).ctr r])).result.get?
            prev.length = some (mkNewTodo env (initState prev).ctr r) := by
          rw [show (initState (prev ++ [mkNewTodo env (initState prev).ctr r])).result
            = prev ++ mkNewTodo env (initState prev).ctr r :: [] from rfl]
          exact get?_middle prev _ []
        rw [hsingle, mergeStep_patch env _ r _ _ prev.length hfp hid hex2 hfind2 hget2]
        show (prev ++ mkNewTodo env (initState prev).ctr r :: []).set prev.length
            (patchExisting env r (mkNewTodo env (initState prev).ctr r))
          = prev ++ mkNewTodo env (initState prev).ctr r :: []
        rw [set_middle, patchExisting_mkNew]
      | some ex =>
        have hmem : ex ∈ prev := existingLookup_initState_mem prev r ex hel
        obtain ⟨l1, l2, hdecomp⟩ := List.append_of_mem hmem
        subst hdecomp
        have hpw := List.pairwise_append.mp hdist
        have hd1 : ∀ q ∈ l1, q.id ≠ ex.id := fun q hq =>
          hpw.2.2 q hq ex (List.mem_cons_self ex l2)
        have hd2 : ∀ q ∈ l2, ex.id ≠ q.id := fun q hq =>
          (List.pairwise_cons.mp hpw.2.1).1 q hq
        have hothers : (∀ q ∈ l1, q.id ≠ some x) ∧ (∀ q ∈ l2, q.id ≠ some x) := by
          by_cases hexid : ex.id = some x
          · exact ⟨fun q hq => hexid ▸ hd1 q hq,
              fun q hq h => (hexid ▸ hd2 q hq) h.symm⟩
          · have hbyid : alookup (some x) (initState (l1 ++ ex :: l2)).byId = none := by
              cases hby : alookup (some x) (initState (l1 ++ ex :: l2)).byId with
              | none => rfl
              | some e =>
                exfalso
                have hin := existingLookup_byId (initState (l1 ++ ex :: l2)) r x e hr hx hby
                rw [hel] at hin
                have he : ex = e := by injection hin
                have := (alookup_mkMap_map_mem Todo.id (some x) (l1 ++ ex :: l2) e hby).2
                exact hexid (by rw [he]; exact this)
            have := byId_none_no_id (l1 ++ ex :: l2) x hbyid
            exact ⟨fun q hq => this q (List.mem_append_left _ hq),
              fun q hq => this q (List.mem_append_right _ (List.mem_cons_of_mem ex hq))⟩
        have hfind1 : findIdxO (fun q => q.id == ex.id)
            (initState (l1 ++ ex :: l2)).result = some l1.length := by
          rw [show (initState (l1 ++ ex :: l2)).result = l1 ++ ex :: l2 from rfl]
          exact findIdxO_append_middle _ l1 ex l2
            (fun q hq => by simp [hd1 q hq]) (by simp)
        have hget1 : (initState (l1 ++ ex :: l2)).result.get? l1.length = some ex := by
          rw [show (initState (l1 ++ ex :: l2)).result = l1 ++ ex :: l2 from rfl]
          exact get?_middle l1 ex l2
        have e1 : mergeIncomingTodos env [r] (l1 ++ ex :: l2)
            = l1 ++ patchExisting env r ex :: l2 := by
          rw [hsingle, mergeStep_patch env _ r ex ex l1.length hfp hid hel hfind1 hget1]
          show (l1 ++ ex :: l2).set l1.length (patchExisting env r ex)
            = l1 ++ patchExisting env r ex :: l2
          exact set_middle l1 ex _ l2
        rw [e1]
        have hpid : (patchExisting env r ex).id = some x := by
          rw [patchExisting_id, hptid]
          rfl
        have hby2 : alookup (some x) (initState (l1 ++ patchExisting env r ex :: l2)).byId
            = some (patchExisting env r ex) := by
          rw [show (initState (l1 ++ patchExisting env r ex :: l2)).byId
            = mkMap ((l1 ++ patchExisting env r ex :: l2).map fun q => (q.id, q)) from rfl]
          exact alookup_mkMap_map_unique Todo.id (some x) l1 _ l2 hothers.1 hothers.2 hpid
        have hex2 := existingLookup_byId (initState (l1 ++ patchExisting env r ex :: l2))
          r x _ hr hx hby2
        have hfind2 : findIdxO (fun q => q.id == (patchExisting env r ex).id)
            (initState (l1 ++ patchExisting env r ex :: l2)).result = some l1.length := by
          rw [show (initState (l1 ++ patchExisting env r ex :: l2)).result
            = l1 ++ patchExisting env r ex :: l2 from rfl]
          exact findIdxO_append_middle _ l1 _ l2
            (fun q hq => by simp [hpid, hothers.1 q hq]) (by simp)
        have hget2 : (initState (l1 ++ patchExisting env r ex :: l2)).result.get? l1.length
            = some (patchExisting env r ex) := by
          rw [show (initState (l1 ++ patchExisting env r ex :: l2)).result
            = l1 ++ patchExisting env r ex :: l2 from rfl]
          exact get?_middle l1 _ l2
        rw [hsingle, mergeStep_patch env _ r _ _ l1.length hfp hid hex2 hfind2 hget2]
        show (l1 ++ patchExisting env r ex :: l2).set l1.length
            (patchExisting env r (patchExisting env r ex))
          = l1 ++ patchExisting env r ex :: l2
        rw [set_middle, patchExisting_idem]

/-- Witness for the amended C3 at a concrete list and record. -/
theorem merge_idempotent_single_id_witness :
    mergeIncomingTodos idemEnv [{ id := some "E", title := some "b" }]
        (mergeIncomingTodos idemEnv [{ id := some "E", title := some "b" }] idemPrev)
      = mergeIncomingTodos idemEnv [{ id := some "E", title := some "b" }] idemPrev := by
  exact merge_idempotent_single_id idemEnv idemPrev { id := some "E", title := some "b" } "E"
    rfl (by decide) (by simp [idemPrev])

/-- Setting inside the left part of an append. -/
theorem set_append_left (v : Todo) :
    ∀ (P N : List Todo) (i : Nat), i < P.length → (P ++ N).set i v = P.set i v ++ N := by
  intro P
  induction P with
  | nil => intro N i h; simp at h
  | cons p rest ih =>
    intro N i h
    match i with
    | 0 => rfl
    | i + 1 =>
      show p :: (rest ++ N).set i v = p :: (rest.set i v ++ N)
      rw [ih N i (by simpa using h)]

/-- Setting inside the right part of an append. -/
theorem set_append_right (v : Todo) :
    ∀ (P N : List Todo) (i : Nat), P.length ≤ i →
      (P ++ N).set i v = P ++ N.set (i - P.length) v := by
  intro P
  induction P with
  | nil => intro N i h; simp
  | cons p rest ih =>
    intro N i h
    match i with
    | 0 => simp at h
    | i + 1 =>
      show p :: (rest ++ N).set i v = p :: (rest ++ N.set (i + 1 - (p :: rest).length) v)
      rw [ih N i (by simpa using h)]
      rw [show i + 1 - (p :: rest).length = i - rest.length by
        simp only [List.length_cons]; omega]

/-- Extract the aligned left element from a `Forall₂`. -/
theorem forall₂_get? {R : Todo → Todo → Prop} :
    ∀ {as bs : List Todo}, List.Forall₂ R as bs → ∀ {i : Nat} {b : Todo},
      bs.get? i = some b → ∃ a, as.get? i = some a ∧ R a b := by
  intro as bs h
  induction h with
  | nil => intro i b hb; simp at hb
  | cons hr _ ih =>
    intro i b hb
    match i with
    | 0 =>
      injection hb with hb
      exact ⟨_, rfl, hb ▸ hr⟩
    | i + 1 => exact ih hb

/-- Updating the right list of a `Forall₂` at a position whose left partner
is related to the new value. -/
theorem forall₂_set {R : Todo → Todo → Prop} :
    ∀ {as bs : List Todo}, List.Forall₂ R as bs → ∀ {i : Nat} {a q : Todo},
      as.get? i = some a → R a q → List.Forall₂ R as (bs.set i q) := by
  intro as bs h
  induction h with
  | nil => intro i a q ha; simp at ha
  | @cons a0 b0 as0 bs0 hr ht ih =>
    intro i a q ha hq
    match i with
    | 0 =>
      injection ha with ha
      subst ha
      exact List.Forall₂.cons hq ht
    | i + 1 =>
      exact List.Forall₂.cons hr (ih ha hq)

/-- The result of one loop step: unchanged, an in-place patch of one
position, or the fresh record appended. -/
theorem mergeStep_result (env : MergeEnv) (st : MState) (raw : Todo) :
    (mergeStep env st raw).result = st.result
    ∨ (∃ idx base, st.result.get? idx = some base
        ∧ (mergeStep env st raw).result = st.result.set idx (patchExisting env raw base))
    ∨ (mergeStep env st raw).result = st.result ++ [mkNewTodo env st.ctr raw] := by
  unfold mergeStep
  split
  · exact Or.inl rfl
  · split
    · exact Or.inl rfl
    · split
      · split
        · split
          · rename_i base hbase
            exact Or.inr (Or.inl ⟨_, base, hbase, rfl⟩)
          · exact Or.inl rfl
        · exact Or.inl rfl
      · exact Or.inr (Or.inr rfl)

/-- Invariant of the merge loop: the result is always the pre-existing
records (each patched zero or more times, in their original positions)
followed by fresh records for a subsequence of the already-processed
incoming records, in order. -/
theorem merge_loop_inv (env : MergeEnv) (prev incoming : List Todo) :
    ∀ (inc2 seen : List Todo) (st : MState),
      (∀ s ∈ inc2, s ∈ incoming) →
      (∃ P N rs, st.result = P ++ N ∧ P.length = prev.length
        ∧ List.Forall₂ (chainRel env incoming) prev P
        ∧ rs.Sublist seen ∧ List.Forall₂ (newRel env incoming) rs N) →
      ∃ P N rs, (List.foldl (mergeStep env) st inc2).result = P ++ N
        ∧ P.length = prev.length
        ∧ List.Forall₂ (chainRel env incoming) prev P
        ∧ rs.Sublist (seen ++ inc2) ∧ List.Forall₂ (newRel env incoming) rs N := by
  intro inc2
  induction inc2 with
  | nil =>
    intro seen st _ hinv
    obtain ⟨P, N, rs, h1, h2, h3, h4, h5⟩ := hinv
    exact ⟨P, N, rs, h1, h2, h3, by simpa using h4, h5⟩
  | cons r inc2 ih =>
    intro seen st hmem hinv
    obtain ⟨P, N, rs, h1, h2, h3, h4, h5⟩ := hinv
    have hrmem : r ∈ incoming := hmem r (List.mem_cons_self r inc2)
    have hstep : ∃ P2 N2 rs2, (mergeStep env st r).result = P2 ++ N2
        ∧ P2.length = prev.length
        ∧ List.Forall₂ (chainRel env incoming) prev P2
        ∧ rs2.Sublist (seen ++ [r]) ∧ List.Forall₂ (newRel env incoming) rs2 N2 := by
      rcases mergeStep_result env st r with hsame | ⟨idx, base, hbase, hset⟩ | happ
      · exact ⟨P, N, rs, hsame.trans h1, h2, h3,
          h4.trans (List.sublist_append_left seen [r]), h5⟩
      · rw [h1] at hbase hset
        by_cases hidx : idx < P.length
        · rw [set_append_left _ P N idx hidx] at hset
          rw [List.get?_append hidx] at hbase
          obtain ⟨a, ha, hrel⟩ := forall₂_get? h3 hbase
          obtain ⟨ps, hps, hchain⟩ := hrel
          have hrel2 : chainRel env incoming a (patchExisting env r base) := by
            refine ⟨ps ++ [r], ?_, ?_⟩
            · intro s hs
              rcases List.mem_append.mp hs with hs | hs
              · exact hps s hs
              · rw [List.mem_singleton.mp hs]; exact hrmem
            · rw [patchChain, List.foldl_append, hchain]
              rfl
          exact ⟨P.set idx (patchExisting env r base), N, rs, hset,
            by rw [List.length_set]; exact h2, forall₂_set h3 ha hrel2,
            h4.trans (List.sublist_append_left seen [r]), h5⟩
        · push_neg at hidx
          rw [set_append_right _ P N idx hidx] at hset
          rw [List.get?_append_right hidx] at hbase
          obtain ⟨a, ha, hrel⟩ := forall₂_get? h5 hbase
          obtain ⟨ps, k, hps, hchain⟩ := hrel
          have hrel2 : newRel env incoming a (patchExisting env r base) := by
            refine ⟨ps ++ [r], k, ?_, ?_⟩
            · intro s hs
              rcases List.mem_append.mp hs with hs | hs
              · exact hps s hs
              · rw [List.mem_singleton.mp hs]; exact hrmem
            · rw [patchChain, List.foldl_append, hchain]
              rfl
          exact ⟨P, N.set (idx - P.length) (patchExisting env r base), rs, hset, h2, h3,
            h4.trans (List.sublist_append_left seen [r]), forall₂_set h5 ha hrel2⟩
      · rw [h1, List.append_assoc] at happ
        refine ⟨P, N ++ [mkNewTodo env st.ctr r], rs ++ [r], happ, h2, h3,
          List.Sublist.append h4 (List.Sublist.refl [r]), ?_⟩
        refine List.rel_append h5 (List.Forall₂.cons ?_ List.Forall₂.nil)
        exact ⟨[], st.ctr, by intro s hs; simp at hs, rfl⟩
    rw [List.foldl_cons]
    obtain ⟨P2, N2, rs2, hh⟩ := hstep
    have := ih (seen ++ [r]) (mergeStep env st r)
      (fun s hs => hmem s (List.mem_cons_of_mem r hs)) ⟨P2, N2, rs2, hh⟩
    rw [List.append_assoc] at this
    simpa using this

/-- C8: the merge preserves the original order and never drops existing
records.  The output is the original records — each possibly patched with
defined fields of incoming records, at its original position — followed by
the fresh records inserted for a subsequence of the incoming batch, in
batch order (each possibly patched by later records of the same batch); and
every fresh record is built with `done` defaulted to `false`, `createdAt`
defaulted to now, and a generated identifier when these are absent. -/
theorem merge_preserves_order (env : MergeEnv) (prev incoming : List Todo) :
    (∃ P N rs, mergeIncomingTodos env incoming prev = P ++ N
      ∧ P.length = prev.length
      ∧ List.Forall₂ (chainRel env incoming) prev P
      ∧ rs.Sublist incoming
      ∧ List.Forall₂ (newRel env incoming) rs N)
    ∧ ∀ (k : Nat) (r : Todo),
        (mkNewTodo env k r).done = some (r.done.getD false)
        ∧ (mkNewTodo env k r).createdAt = some (r.createdAt.getD env.now)
        ∧ (mkNewTodo env k r).id = some (r.id.getD (genId env.now k)) := by
  constructor
  · have := merge_loop_inv env prev incoming incoming [] (initState prev)
      (fun s hs => hs)
      ⟨prev, [], [], (List.append_nil prev).symm, rfl,
        List.forall₂_same.mpr (fun x _ => ⟨[], by intro s hs; simp at hs, rfl⟩),
        List.Sublist.refl [], List.Forall₂.nil⟩
    simpa using this
  · intro k r
    refine ⟨rfl, ?_, ?_⟩
    · show some ((partialOf r).createdAt.getD (r.createdAt.getD env.now))
        = some (r.createdAt.getD env.now)
      rw [show (partialOf r).createdAt = r.createdAt from rfl]
      cases r.createdAt <;> rfl
    · show some ((partialOf r).id.getD (genId env.now k)) = some (r.id.getD (genId env.now k))
      rw [show (partialOf r).id = r.id from rfl]
